import Mathlib

/-!
# A shallow embedding of the traefik-guard rule engine

This file embeds the rule grammar (`src/proto.rs`), the tag filter
(`src/tags.rs`), the per-group rule store (`SecurityGroup`) and the service
layer (`src/state.rs`) of the traefik-guard repository, and proves the
specification claims about them.

Strings are modelled as lists of characters (`Str`); Rust's `str::split`,
`str::trim`, `u16::from_str`, `Ipv4Addr::from_str` and the decimal rendering
used by `to_string` are modelled by executable Lean functions below.
-/

set_option maxHeartbeats 1000000

deriving instance DecidableEq for Except

namespace TraefikGuard

/-- Strings as lists of characters. -/
abbrev Str := List Char

/-- Rust `str::split(sep)` for a one-character separator: always returns at
least one (possibly empty) piece; `"a|".split('|')` is `["a", ""]`. -/
def splitOnC (c : Char) : Str → List Str
  | [] => [[]]
  | x :: xs =>
    if x = c then [] :: splitOnC c xs
    else
      match splitOnC c xs with
      | [] => [[x]]
      | y :: ys => (x :: y) :: ys

/-- `List.intercalate` specialised to a one-character separator: the inverse
direction of `splitOnC` used by the serializers (`join("|")`, `join(",")`). -/
def intercalateC (c : Char) : List Str → Str
  | [] => []
  | [x] => x
  | x :: xs => x ++ c :: intercalateC c xs

theorem splitOnC_ne_nil (c : Char) (s : Str) : splitOnC c s ≠ [] := by
  cases s with
  | nil => simp [splitOnC]
  | cons x xs =>
    simp only [splitOnC]
    split
    · simp
    · split <;> simp

/-- Splitting a separator-free string returns the one-element list. -/
theorem splitOnC_of_not_mem {c : Char} {s : Str} (h : c ∉ s) :
    splitOnC c s = [s] := by
  induction s with
  | nil => rfl
  | cons x xs ih =>
    simp only [List.mem_cons, not_or] at h
    have hx : ¬ x = c := fun hx => h.1 hx.symm
    simp only [splitOnC, if_neg hx]
    rw [ih h.2]

/-- Splitting pulls off a leading separator-free prefix. -/
theorem splitOnC_append_cons {c : Char} {s : Str} (h : c ∉ s) (t : Str) :
    splitOnC c (s ++ c :: t) = s :: splitOnC c t := by
  induction s with
  | nil => simp [splitOnC]
  | cons x xs ih =>
    simp only [List.mem_cons, not_or] at h
    have hx : ¬ x = c := fun hx => h.1 hx.symm
    rw [List.cons_append]
    simp only [splitOnC, if_neg hx]
    rw [ih h.2]

/-- `splitOnC` recovers the pieces of an `intercalateC` whenever no piece
contains the separator. -/
theorem splitOnC_intercalateC {c : Char} {xs : List Str} (hne : xs ≠ [])
    (h : ∀ s ∈ xs, c ∉ s) : splitOnC c (intercalateC c xs) = xs := by
  induction xs with
  | nil => exact absurd rfl hne
  | cons x xs ih =>
    cases xs with
    | nil =>
      simp only [intercalateC]
      exact splitOnC_of_not_mem (h x (List.mem_cons_self x []))
    | cons y ys =>
      simp only [intercalateC]
      rw [splitOnC_append_cons (h x (List.mem_cons_self x _))]
      rw [ih (by simp) (fun s hs => h s (List.mem_cons_of_mem x hs))]

/-- Every piece produced by `splitOnC` is free of the separator. -/
theorem not_mem_of_mem_splitOnC {c : Char} {s p : Str}
    (hp : p ∈ splitOnC c s) : c ∉ p := by
  induction s generalizing p with
  | nil =>
    simp only [splitOnC, List.mem_singleton] at hp
    subst hp; simp
  | cons x xs ih =>
    simp only [splitOnC] at hp
    by_cases hx : x = c
    · rw [if_pos hx] at hp
      rcases List.mem_cons.mp hp with h | h
      · subst h; simp
      · exact ih h
    · rw [if_neg hx] at hp
      cases hsp : splitOnC c xs with
      | nil => exact absurd hsp (splitOnC_ne_nil c xs)
      | cons y ys =>
        rw [hsp] at hp
        rcases List.mem_cons.mp hp with h | h
        · subst h
          intro hmem
          rcases List.mem_cons.mp hmem with h' | h'
          · exact hx h'.symm
          · exact ih (hsp ▸ List.mem_cons_self y ys) h'
        · exact ih (hsp ▸ List.mem_cons_of_mem y h)

/-- Rust `str::trim` (whitespace on both ends). -/
def trimStr (s : Str) : Str :=
  ((s.dropWhile Char.isWhitespace).reverse.dropWhile Char.isWhitespace).reverse

/-- The character for one decimal digit. -/
def digitChar : Nat → Char
  | 0 => '0' | 1 => '1' | 2 => '2' | 3 => '3' | 4 => '4'
  | 5 => '5' | 6 => '6' | 7 => '7' | 8 => '8' | _ + 9 => '9'

/-- Fuel-driven digit rendering (structural recursion so that the kernel can
evaluate it; `natDigits_eq` below recovers the natural recurrence). -/
def natDigitsGo : Nat → Nat → Str
  | 0, _ => []
  | fuel + 1, n =>
    if n < 10 then [digitChar n]
    else natDigitsGo fuel (n / 10) ++ [digitChar (n % 10)]

/-- Decimal digits of a natural number, most significant first; the rendering
used by Rust's `Display` for integers. -/
def natDigits (n : Nat) : Str := natDigitsGo (n + 1) n

theorem natDigitsGo_irrel (f1 : Nat) : ∀ f2 n, n < f1 → n < f2 →
    natDigitsGo f1 n = natDigitsGo f2 n := by
  induction f1 with
  | zero => omega
  | succ f1 ih =>
    intro f2 n h1 h2
    cases f2 with
    | zero => omega
    | succ f2 =>
      simp only [natDigitsGo]
      split


      · rfl
      · next h =>
        rw [ih f2 (n / 10) (by omega) (by omega)]

theorem natDigitsGo_succ (fuel n : Nat) :
    natDigitsGo (fuel + 1) n =
      if n < 10 then [digitChar n]
      else natDigitsGo fuel (n / 10) ++ [digitChar (n % 10)] := rfl

/-- The recurrence the source's decimal rendering satisfies. -/
theorem natDigits_eq (n : Nat) :
    natDigits n = if n < 10 then [digitChar n]
      else natDigits (n / 10) ++ [digitChar (n % 10)] := by
  show natDigitsGo (n + 1) n = _
  rw [natDigitsGo_succ]
  split
  · rfl
  · next h =>
    rw [natDigitsGo_irrel n (n / 10 + 1) (n / 10) (by omega) (by omega)]
    rfl

/-- Numeric value of a digit string (the accumulator loop of integer
`from_str`). -/
def digitsVal (s : Str) : Nat :=
  s.foldl (fun a c => a * 10 + (c.toNat - 48)) 0

theorem digitsVal_append_singleton (s : Str) (c : Char) :
    digitsVal (s ++ [c]) = 10 * digitsVal s + (c.toNat - 48) := by
  simp [digitsVal, List.foldl_append, Nat.mul_comm]

theorem natDigits_ne_nil (n : Nat) : natDigits n ≠ [] := by
  rw [natDigits_eq]
  split <;> simp

theorem digitChar_toNat : ∀ n < 10, (digitChar n).toNat = 48 + n := by decide

theorem digitChar_isDigit : ∀ n < 10, (digitChar n).isDigit = true := by decide

theorem digitsVal_natDigits (n : Nat) : digitsVal (natDigits n) = n := by
  induction n using Nat.strong_induction_on with
  | _ n ih =>
    rw [natDigits_eq]
    split
    · next h =>
      simp only [digitsVal, List.foldl_cons, List.foldl_nil]
      rw [digitChar_toNat n h]
      omega
    · next h =>
      rw [digitsVal_append_singleton]
      rw [ih (n / 10) (Nat.div_lt_self (by omega) (by omega))]
      rw [digitChar_toNat (n % 10) (Nat.mod_lt _ (by omega))]
      omega

theorem natDigits_injective : Function.Injective natDigits := by
  intro a b h
  have := digitsVal_natDigits a
  rw [h, digitsVal_natDigits] at this
  omega

theorem isDigit_natDigits (n : Nat) : ∀ c ∈ natDigits n, c.isDigit := by
  induction n using Nat.strong_induction_on with
  | _ n ih =>
    rw [natDigits_eq]
    split
    · next h =>
      intro c hc
      simp only [List.mem_singleton] at hc
      subst hc
      exact digitChar_isDigit n h
    · next h =>
      intro c hc
      rcases List.mem_append.mp hc with h' | h'
      · exact ih (n / 10) (Nat.div_lt_self (by omega) (by omega)) c h'
      · simp only [List.mem_singleton] at h'
        subst h'
        exact digitChar_isDigit (n % 10) (Nat.mod_lt _ (by omega))

/-- A digit character is never equal to a non-digit character. -/
theorem mem_natDigits_ne {n : Nat} {c x : Char} (hc : c ∈ natDigits n)
    (hx : x.isDigit = false) : c ≠ x := by
  intro h
  subst h
  rw [isDigit_natDigits n c hc] at hx
  exact absurd hx (by decide)

/-- Strip one leading `'+'`, as Rust's unsigned `from_str` does. -/
def stripPlus (s : Str) : Str :=
  if s.head? = some '+' then s.tail else s

/-- Rust `str::parse::<uN>()` for an unsigned integer type with maximum
value `mx`: an optional `'+'`, then one or more decimal digits, rejecting
values that overflow the type.  (Rust detects overflow while accumulating;
since `Nat` does not wrap, checking the final value is equivalent.) -/
def parseUintRust (mx : Nat) (s : Str) : Option Nat :=
  let ds := stripPlus s
  if ds = [] then none
  else if ds.all Char.isDigit then
    let n := digitsVal ds
    if n ≤ mx then some n else none
  else none

/-- Rust `str::parse::<u16>()`. -/
def parseU16 (s : Str) : Option Nat := parseUintRust 65535 s

/-- Rust `str::parse::<u8>()`. -/
def parseU8 (s : Str) : Option Nat := parseUintRust 255 s

theorem stripPlus_natDigits (n : Nat) : stripPlus (natDigits n) = natDigits n := by
  rw [stripPlus, if_neg]
  intro h
  cases hd : natDigits n with
  | nil => exact natDigits_ne_nil n hd
  | cons c cs =>
    rw [hd] at h
    simp only [List.head?] at h
    have := mem_natDigits_ne (hd ▸ List.mem_cons_self c cs) (show ('+' : Char).isDigit = false by decide)
    exact this (Option.some.inj h)

theorem parseUintRust_natDigits {mx n : Nat} (h : n ≤ mx) :
    parseUintRust mx (natDigits n) = some n := by
  rw [parseUintRust, stripPlus_natDigits]
  rw [if_neg (natDigits_ne_nil n)]
  rw [if_pos (List.all_eq_true.mpr (fun c hc => isDigit_natDigits n c hc))]
  simp only [digitsVal_natDigits]
  rw [if_pos h]

/-- An IPv4 address: four octets (Rust `std::net::Ipv4Addr`). -/
structure Ipv4Addr where
  a : Fin 256
  b : Fin 256
  c : Fin 256
  d : Fin 256
deriving DecidableEq

/-- `Ipv4Addr::to_string()`: dotted decimal. -/
def ipToStr (ip : Ipv4Addr) : Str :=
  natDigits ip.a.val ++ '.' ::
    (natDigits ip.b.val ++ '.' :: (natDigits ip.c.val ++ '.' :: natDigits ip.d.val))

/-- One octet of Rust's `Ipv4Addr::from_str`: one or more decimal digits, no
leading zero (unless the octet is exactly `0`), value at most 255.  (Rust
also rejects octets longer than three digits; together with the
no-leading-zero and the ≤ 255 checks this is equivalent.) -/
def parseOctet (s : Str) : Option (Fin 256) :=
  if s ≠ [] ∧ s.all Char.isDigit ∧ (s.length = 1 ∨ s.head? ≠ some '0') then
    if h : digitsVal s < 256 then some ⟨digitsVal s, h⟩ else none
  else none

/-- Rust `Ipv4Addr::from_str`: exactly four octets separated by dots. -/
def parseIpv4 (s : Str) : Option Ipv4Addr :=
  match splitOnC '.' s with
  | [sa, sb, sc, sd] =>
    match parseOctet sa, parseOctet sb, parseOctet sc, parseOctet sd with
    | some a, some b, some c, some d => some ⟨a, b, c, d⟩
    | _, _, _, _ => none
  | _ => none

/-- An IPv4 CIDR network (the `ipnetwork` crate's `Ipv4Network`): an address
and a prefix length of at most 32. -/
structure Ipv4Network where
  addr : Ipv4Addr
  plen : Fin 33
deriving DecidableEq

/-- `Ipv4Network`'s `Display`: `addr/plen`. -/
def netToStr (n : Ipv4Network) : Str :=
  ipToStr n.addr ++ '/' :: natDigits n.plen.val

/-- `Ipv4Network::from_str` of the `ipnetwork` crate: `addr` or
`addr/prefix-length`, prefix parsed as `u8` and bounded by 32. -/
def parseIpv4Network (s : Str) : Option Ipv4Network :=
  match splitOnC '/' s with
  | [sa] => (parseIpv4 sa).map (fun ip => ⟨ip, ⟨32, by omega⟩⟩)
  | [sa, sp] =>
    match parseIpv4 sa, parseU8 sp with
    | some ip, some p => if h : p ≤ 32 then some ⟨ip, ⟨p, by omega⟩⟩ else none
    | _, _ => none
  | _ => none

/-- The 32-bit value of an address. -/
def ipToNat (ip : Ipv4Addr) : Nat :=
  ip.a.val * 2 ^ 24 + ip.b.val * 2 ^ 16 + ip.c.val * 2 ^ 8 + ip.d.val

/-- `Ipv4Network::contains`: the address agrees with the network address on
the first `plen` bits (mask comparison, expressed by dropping the low
`32 - plen` bits). -/
def netContains (net : Ipv4Network) (ip : Ipv4Addr) : Bool :=
  ipToNat ip / 2 ^ (32 - net.plen.val) = ipToNat net.addr / 2 ^ (32 - net.plen.val)

theorem dot_not_mem_natDigits (n : Nat) : '.' ∉ natDigits n := by
  intro h
  exact mem_natDigits_ne h (show ('.' : Char).isDigit = false by decide) rfl

theorem splitOnC_ipToStr (ip : Ipv4Addr) :
    splitOnC '.' (ipToStr ip) =
      [natDigits ip.a.val, natDigits ip.b.val, natDigits ip.c.val, natDigits ip.d.val] := by
  rw [ipToStr]
  rw [splitOnC_append_cons (dot_not_mem_natDigits _)]
  rw [splitOnC_append_cons (dot_not_mem_natDigits _)]
  rw [splitOnC_append_cons (dot_not_mem_natDigits _)]
  rw [splitOnC_of_not_mem (dot_not_mem_natDigits _)]

theorem ipToStr_injective : Function.Injective ipToStr := by
  intro x y h
  have hx := splitOnC_ipToStr x
  have hy := splitOnC_ipToStr y
  rw [h, hy] at hx
  simp only [List.cons.injEq, and_true] at hx
  obtain ⟨ha, hb, hc, hd⟩ := hx
  cases x; cases y
  simp only [Ipv4Addr.mk.injEq]
  exact ⟨Fin.val_injective (natDigits_injective ha.symm),
    Fin.val_injective (natDigits_injective hb.symm),
    Fin.val_injective (natDigits_injective hc.symm),
    Fin.val_injective (natDigits_injective hd.symm)⟩

theorem one_le_length_natDigits (n : Nat) : 1 ≤ (natDigits n).length := by
  cases hd : natDigits n with
  | nil => exact absurd hd (natDigits_ne_nil n)
  | cons c cs => simp

theorem seven_le_length_ipToStr (ip : Ipv4Addr) : 7 ≤ (ipToStr ip).length := by
  rw [ipToStr]
  simp only [List.length_append, List.length_cons]
  have := one_le_length_natDigits ip.a.val
  have := one_le_length_natDigits ip.b.val
  have := one_le_length_natDigits ip.c.val
  have := one_le_length_natDigits ip.d.val
  omega

/-- Every character of a rendered address is a digit or a dot. -/
theorem mem_ipToStr (ip : Ipv4Addr) :
    ∀ c ∈ ipToStr ip, c.isDigit = true ∨ c = '.' := by
  intro c hc
  rw [ipToStr] at hc
  simp only [List.mem_append, List.mem_cons] at hc
  rcases hc with h | h | h | h | h | h | h
  · exact Or.inl (isDigit_natDigits _ c h)
  · exact Or.inr h
  · exact Or.inl (isDigit_natDigits _ c h)
  · exact Or.inr h
  · exact Or.inl (isDigit_natDigits _ c h)
  · exact Or.inr h
  · exact Or.inl (isDigit_natDigits _ c h)

/-- `Source` (src/proto.rs): where a visitor may come from. -/
inductive Source where
  | Any : Source
  | FromIpv4 (ip : Ipv4Addr) : Source
  | FromIpv4Network (net : Ipv4Network) : Source
  | FromCountry (c : Str) : Source
  | FromCity (c : Str) : Source
deriving DecidableEq

/-- `Source::to_string`. -/
def Source.toStr : Source → Str
  | .Any => ['*']
  | .FromIpv4 ip => ipToStr ip
  | .FromIpv4Network net => netToStr net
  | .FromCountry c => c
  | .FromCity c => c

/-- `Source::parse`: empty or `*` is Any, two characters is a country code,
then IPv4 address, then CIDR network, and any other text is a city. -/
def Source.parse (input : Str) : Source :=
  if input = [] ∨ input = ['*'] then .Any
  else if input.length = 2 then .FromCountry input
  else
    match parseIpv4 input with
    | some ip => .FromIpv4 ip
    | none =>
      match parseIpv4Network input with
      | some net => .FromIpv4Network net
      | none => .FromCity input

/-- `Target` (src/proto.rs).  `PathPref` is the source's path-prefix
constructor (spelled with a caret in the grammar). -/
inductive Target where
  | Any : Target
  | Path (p : Str) : Target
  | PathPref (p : Str) : Target
deriving DecidableEq

/-- `Target::to_string`. -/
def Target.toStr : Target → Str
  | .Any => []
  | .Path p => p
  | .PathPref p => '^' :: p

/-- `Target::parse`: leading `/` is a Path (kept whole), leading `^` is a
path-prefix (text after the caret), anything else is Any. -/
def Target.parse (input : Str) : Target :=
  match input with
  | [] => .Any
  | c :: rest =>
    if c = '/' then .Path input
    else if c = '^' then .PathPref rest
    else .Any

/-- `Access` (src/proto.rs). -/
inductive Access where
  | From (s : Source) : Access
  | Excluding (s : Source) : Access
deriving DecidableEq

/-- `Access::to_string`. -/
def Access.toStr : Access → Str
  | .From s => s.toStr
  | .Excluding s => '-' :: s.toStr

/-- `Access::parse`: a leading `-` on a token of length over one makes it
Excluding of the rest. -/
def Access.parse (input : Str) : Access :=
  match input with
  | c :: r =>
    if c = '-' ∧ r ≠ [] then .Excluding (Source.parse r)
    else .From (Source.parse input)
  | [] => .From (Source.parse [])

/-- `Reaction` (src/proto.rs). -/
inductive Reaction where
  | PermanentRedirect (loc : Str) : Reaction
  | TemporaryRedirect (loc : Str) : Reaction
  | HttpStatus (code : Nat) : Reaction
deriving DecidableEq

/-- `Reaction::code`. -/
def Reaction.code : Reaction → Nat
  | .PermanentRedirect _ => 301
  | .TemporaryRedirect _ => 302
  | .HttpStatus code => code

/-- `Reaction::redirect`. -/
def Reaction.redirect : Reaction → Option Str
  | .PermanentRedirect loc => some loc
  | .TemporaryRedirect loc => some loc
  | .HttpStatus _ => none

/-- `Reaction::extract`: split on `|`; three parts demand a 301/302 redirect,
one part is a bare status-200 body, and any other count takes part 0 as a
`u16` status and part 1 as the body (parts from the third on are ignored).
The split of a string is never empty, so the `[]` arm is unreachable. -/
def Reaction.extract (input : Str) : Except String (Str × Reaction) :=
  match splitOnC '|' input with
  | [p] => .ok (p, .HttpStatus 200)
  | [p1, p2, p3] =>
    if p1 = ['3', '0', '1'] then .ok (p2, .PermanentRedirect p3)
    else if p1 = ['3', '0', '2'] then .ok (p2, .TemporaryRedirect p3)
    else .error "redirect HTTP status expected 301 or 302"
  | p0 :: p1 :: _ =>
    match parseU16 p0 with
    | some status => .ok (p1, .HttpStatus status)
    | none => .error "invalid HTTP status"
  | [] => .error "unreachable"

/-- `Rule` (src/proto.rs). -/
structure Rule where
  access : List Access
  target : List Target
  reaction : Reaction
  tags : List Str
deriving DecidableEq

/-- `Rule::has_access_conditions`: false iff the access list is exactly
`[From(Any)]`.  (The source tests `access[0]` under a `len() <= 1` guard and
would panic on an empty list; every rule the program builds has a nonempty
access list, and the theorems below only use such rules.) -/
def Rule.has_access_conditions (r : Rule) : Bool :=
  match r.access with
  | [Access.From Source.Any] => false
  | _ => true

/-- `Rule::has_target_conditions`: false iff the target list is exactly
`[Any]` (same caveat about the empty list as for access). -/
def Rule.has_target_conditions (r : Rule) : Bool :=
  match r.target with
  | [Target.Any] => false
  | _ => true

/-- `Rule::index_keys`: if access is trivial, every `Path` target yields the
path and, when it does not already end in `/`, the path with `/` appended;
otherwise if target is trivial, every `From(Ipv4)`/`From(Country)` access
yields its string; otherwise no keys. -/
def Rule.index_keys (r : Rule) : List Str :=
  if ¬ r.has_access_conditions then
    (r.target.map (fun t =>
      match t with
      | Target.Path x =>
        (match x.getLast? with
         | some lc => if lc ≠ '/' then [x ++ ['/']] else []
         | none => []) ++ [x]
      | _ => [])).flatten
  else if ¬ r.has_target_conditions then
    (r.access.map (fun a =>
      match a with
      | Access.From (Source.FromIpv4 ip) => [ipToStr ip]
      | Access.From (Source.FromCountry c) => [c]
      | _ => [])).flatten
  else []

/-- `Rule::parse`: split off tags at `#` (tags are the second segment split
on commas; content after a second `#` is discarded), extract the reaction,
then classify each comma token: leading `/` or `^` makes a Target, anything
else an Access; empty classes default to `[From(Any)]` / `[Any]`. -/
def Rule.parse (src : Str) : Except String Rule :=
  let with_tags := splitOnC '#' src
  let tags : List Str :=
    match with_tags with
    | _ :: second :: _ => splitOnC ',' second
    | _ => []
  let remains : Str :=
    match with_tags with
    | first :: _ :: _ => first
    | _ => src
  match Reaction.extract remains with
  | .error e => .error e
  | .ok (input, reaction) =>
    let parts := splitOnC ',' input
    let access :=
      (parts.filter (fun p => ¬ (p.head? = some '/' ∨ p.head? = some '^'))).map Access.parse
    let target :=
      (parts.filter (fun p => p.head? = some '/' ∨ p.head? = some '^')).map Target.parse
    let access := if access = [] then [Access.From Source.Any] else access
    let target := if target = [] then [Target.Any] else target
    .ok ⟨access, target, reaction, tags⟩

/-- `Rule::to_string`: `[code|]access,target[|redirect][#tags]`; the code is
emitted only when it differs from 200, access tokens only when the access
list is nontrivial, and empty target renderings are dropped. -/
def Rule.to_string (r : Rule) : Str :=
  let out : List Str := if r.reaction.code ≠ 200 then [natDigits r.reaction.code] else []
  let aparts : List Str :=
    if r.has_access_conditions then
      (r.access.map Access.toStr).filter (fun s => s.length > 0)
    else []
  let tparts : List Str := (r.target.map Target.toStr).filter (fun s => s.length > 0)
  let out := out ++ [intercalateC ',' (aparts ++ tparts)]
  let out := out ++ (match r.reaction.redirect with | some l => [l] | none => [])
  let base := intercalateC '|' out
  if r.tags ≠ [] then base ++ '#' :: intercalateC ',' r.tags else base

/-- The per-request facts of the `Visitor` trait. -/
structure Visitor where
  country : Option Str
  city : Option Str
  ip : Ipv4Addr
  uri : Str
deriving DecidableEq

/-- Whether a visitor satisfies one `Source` (the `From` arm of
`Rule::react`). -/
def Source.matches (s : Source) (v : Visitor) : Bool :=
  match s with
  | .Any => true
  | .FromIpv4 ip => v.ip = ip
  | .FromIpv4Network net => netContains net v.ip
  | .FromCountry c => v.country = some c
  | .FromCity c => v.city = some c

/-- Whether a visitor's URI satisfies one `Target`. -/
def Target.matches (t : Target) (v : Visitor) : Bool :=
  match t with
  | .Any => true
  | .Path p => v.uri = p ∨ v.uri = p ++ ['/']
  | .PathPref p => p.isPrefixOf v.uri

/-- The target phase of `Rule::react`: first match wins; an empty target
list matches. -/
def Rule.match_target (r : Rule) (v : Visitor) : Bool :=
  if r.target = [] then true
  else r.target.any (fun t => t.matches v)

/-- The access-loop body of `Rule::react`: a satisfied `From` sets the
candidate to the rule's reaction, a satisfied `Excluding` clears it, and
`Excluding(Any)` never fires. -/
def reactStep (rea : Reaction) (v : Visitor) (out : Option Reaction) (a : Access) :
    Option Reaction :=
  match a with
  | Access.From s => if s.matches v then some rea else out
  | Access.Excluding s =>
    match s with
    | Source.Any => out
    | _ => if s.matches v then none else out

/-- `Rule::react`: if no target matches the rule does not apply; otherwise
walk the whole access list keeping a candidate (see `reactStep`).  The
final candidate is the result. -/
def Rule.react (r : Rule) (v : Visitor) : Option Reaction :=
  if r.match_target v then
    r.access.foldl (reactStep r.reaction v) none
  else none

/-- `TagMap` (src/tags.rs): including and excluding tag sets. -/
structure TagMap where
  including : List Str
  excluding : List Str
deriving DecidableEq

/-- `TagMap::new`. -/
def TagMap.new : TagMap := ⟨[], []⟩

/-- `TagMap::from_query`: comma tokens; a leading `-` sends the remainder to
excluding, anything else to including. -/
def TagMap.from_query (input : Str) : TagMap :=
  (splitOnC ',' input).foldl
    (fun tm tag =>
      if tag.head? = some '-' then { tm with excluding := tm.excluding ++ [tag.tail] }
      else { tm with including := tm.including ++ [tag] })
    TagMap.new

/-- `TagMap::matches`: an empty filter matches everything; any excluded tag
rejects; with no including set everything else passes; otherwise some tag
must be included. -/
def TagMap.matches (tm : TagMap) (tags : List Str) : Bool :=
  if tm.including = [] ∧ tm.excluding = [] then true
  else if tags.any (fun t => tm.excluding.contains t) then false
  else if tm.including = [] then true
  else tags.any (fun t => tm.including.contains t)

/-- The `BTreeMap<String, Reaction>` index, as an association list with
unique keys.  Only insert/remove/get are used by the program. -/
abbrev ReactionMap := List (Str × Reaction)

/-- `BTreeMap::insert`: overwrite the key if present, else append. -/
def mapInsert (m : ReactionMap) (k : Str) (v : Reaction) : ReactionMap :=
  match m with
  | [] => [(k, v)]
  | (k', v') :: rest => if k' = k then (k, v) :: rest else (k', v') :: mapInsert rest k v

/-- `BTreeMap::remove` (keys are unique, so a filter is equivalent). -/
def mapRemove (m : ReactionMap) (k : Str) : ReactionMap :=
  m.filter (fun p => ¬ p.1 = k)

/-- `BTreeMap::get`. -/
def mapGet (m : ReactionMap) (k : Str) : Option Reaction :=
  match m with
  | [] => none
  | (k', v) :: rest => if k' = k then some v else mapGet rest k

/-- `SecurityGroup` (src/proto.rs): the index map, the indexed list and the
non-indexed scan list. -/
structure SecurityGroup where
  name : Str
  map_indexed : ReactionMap
  list_indexed : List Rule
  list_non_indexed : List Rule
deriving DecidableEq

/-- `SecurityGroup::new`. -/
def SecurityGroup.new (name : Str) : SecurityGroup := ⟨name, [], [], []⟩

/-- `SecurityGroup::count`. -/
def SecurityGroup.count (g : SecurityGroup) : Nat :=
  g.list_indexed.length + g.list_non_indexed.length

/-- `SecurityGroup::add`: with keys, insert every key (last writer wins) and
append to the indexed list; with no keys, append to the non-indexed list. -/
def SecurityGroup.add (g : SecurityGroup) (r : Rule) : SecurityGroup :=
  let keys := r.index_keys
  if keys ≠ [] then
    { g with
      map_indexed := keys.foldl (fun m k => mapInsert m k r.reaction) g.map_indexed,
      list_indexed := g.list_indexed ++ [r] }
  else
    { g with list_non_indexed := g.list_non_indexed ++ [r] }

/-- The loop body of `SecurityGroup::remove_many`: drop the keys of a
removed indexed rule from the map and record the index in the indexed or
(translated) non-indexed bucket. -/
def removeStep (g : SecurityGroup) (acc : ReactionMap × List Nat × List Nat)
    (index : Nat) : ReactionMap × List Nat × List Nat :=
  if hidx : index < g.list_indexed.length then
    let rule := g.list_indexed.get ⟨index, hidx⟩
    (rule.index_keys.foldl mapRemove acc.1, acc.2.1 ++ [index], acc.2.2)
  else
    (acc.1, acc.2.1, acc.2.2 ++ [index - g.list_indexed.length])

/-- `SecurityGroup::remove_many`: partition the indices, drop the keys of
removed indexed rules from the map, rebuild `list_indexed` skipping the
removed positions (only when some indexed position was removed), and then
rebuild `list_non_indexed` — the source's defective rebuild filters
`self.list_indexed` *after* that replacement (not `list_non_indexed`);
both the source of the filter and its timing are kept. -/
def SecurityGroup.remove_many (g : SecurityGroup) (indexes : List Nat) : SecurityGroup :=
  let acc := indexes.foldl (removeStep g) (g.map_indexed, [], [])
  let idx_indexed := acc.2.1
  let idx_non_indexed := acc.2.2
  let new_list_indexed :=
    if idx_indexed ≠ [] then
      (g.list_indexed.enum.filter (fun p => ¬ idx_indexed.contains p.1)).map Prod.snd
    else g.list_indexed
  let new_list_non_indexed :=
    if idx_non_indexed ≠ [] then
      (new_list_indexed.enum.filter (fun p => ¬ idx_non_indexed.contains p.1)).map Prod.snd
    else g.list_non_indexed
  { g with
    map_indexed := acc.1,
    list_indexed := new_list_indexed,
    list_non_indexed := new_list_non_indexed }

/-- `SecurityGroup::remove_by_index`: combined index, indexed range first.
(`Vec::remove` panics when the offset is out of range; callers bounds-check
against `count`, and `eraseIdx` is a no-op there.) -/
def SecurityGroup.remove_by_index (g : SecurityGroup) (index : Nat) : SecurityGroup :=
  if index < g.list_indexed.length then g.remove_many [index]
  else { g with list_non_indexed := g.list_non_indexed.eraseIdx (index - g.list_indexed.length) }

/-- `SecurityGroup::set_by_index`: remove at the combined index, then add
the replacement. -/
def SecurityGroup.set_by_index (g : SecurityGroup) (index : Nat) (r : Rule) : SecurityGroup :=
  (if index < g.list_indexed.length then g.remove_many [index]
   else { g with list_non_indexed := g.list_non_indexed.eraseIdx (index - g.list_indexed.length) }).add r

/-- `SecurityGroup::set_many`: remove all, then add the single replacement. -/
def SecurityGroup.set_many (g : SecurityGroup) (indexes : List Nat) (r : Rule) : SecurityGroup :=
  (g.remove_many indexes).add r

/-- Modelled from the spec: `SecurityGroup::reset` is called by
`SecurityGroupService::delete_rule` but its definition is not among the
provided sources; §4.3 of the spec says "`reset()` clears all three
containers". -/
def SecurityGroup.reset (g : SecurityGroup) : SecurityGroup :=
  { g with map_indexed := [], list_indexed := [], list_non_indexed := [] }

/-- `SecurityGroup::from_reader` applied to an already-split line list:
trim, skip blanks and `#` comments, add every line that parses and skip
(log) the ones that do not. -/
def SecurityGroup.from_lines (name : Str) (lines : List Str) : SecurityGroup :=
  lines.foldl
    (fun g line =>
      let ln := trimStr line
      if ln.length > 0 ∧ ln.head? ≠ some '#' then
        match Rule.parse ln with
        | .ok rule => g.add rule
        | .error _ => g
      else g)
    (SecurityGroup.new name)

/-- The `BTreeMap<String, SecurityGroup>` of the service. -/
abbrev GroupMap := List (Str × SecurityGroup)

/-- `BTreeMap::get` on the group map. -/
def groupsGet (gs : GroupMap) (k : Str) : Option SecurityGroup :=
  match gs with
  | [] => none
  | (k', g) :: rest => if k' = k then some g else groupsGet rest k

/-- `BTreeMap::insert` on the group map (also models mutation through
`get_mut`/`entry`). -/
def groupsInsert (gs : GroupMap) (k : Str) (g : SecurityGroup) : GroupMap :=
  match gs with
  | [] => [(k, g)]
  | (k', g') :: rest => if k' = k then (k, g) :: rest else (k', g') :: groupsInsert rest k g

/-- `SecurityGroupService` (src/state.rs).  `save()` only performs file I/O
and never changes the in-memory state, so it is not part of the model. -/
structure SecurityGroupService where
  storage_path : Str
  groups : GroupMap
deriving DecidableEq

/-- `RulesRef` (src/state.rs). -/
inductive RulesRef where
  | All : RulesRef
  | Index (i : Nat) : RulesRef
  | Tag (t : TagMap) : RulesRef

/-- Rust `str::lines`: split on `\n`, drop a final empty piece produced by a
trailing newline, and strip one trailing `\r` from each line. -/
def rustLines (s : Str) : List Str :=
  if s = [] then []
  else
    let parts := splitOnC '\n' s
    let parts := if parts.getLast? = some [] then parts.dropLast else parts
    parts.map (fun l => if l.getLast? = some '\r' then l.dropLast else l)

/-- The line loop of `create_rule`: add each non-blank trimmed line,
stopping at (and reporting) the first parse failure; earlier adds stay. -/
def addLines (g : SecurityGroup) : List Str → SecurityGroup × Option String
  | [] => (g, none)
  | l :: rest =>
    if (trimStr l).length > 0 then
      match Rule.parse (trimStr l) with
      | .ok r => addLines (g.add r) rest
      | .error e => (g, some e)
    else addLines g rest

/-- `SecurityGroupService::create_rule`: get-or-create the group, add every
non-blank line, and return `count() - 1`.  The subtraction is a Rust
`usize` subtraction, modelled as `(count + 2^64 - 1) % 2^64`: on a group
left empty (blank text on a fresh group) it underflows, which is a panic in
a debug build and the wrap-around value `usize::MAX = 2^64 - 1` kept here
in a release build; for any nonzero count it is the plain `count - 1`.
A parse failure is returned as an error with the earlier adds already
applied. -/
def SecurityGroupService.create_rule (svc : SecurityGroupService) (group_name : Str)
    (rule : Str) : SecurityGroupService × Except String Nat :=
  let g0 := (groupsGet svc.groups group_name).getD (SecurityGroup.new group_name)
  let res := addLines g0 (rustLines rule)
  let svc' := { svc with groups := groupsInsert svc.groups group_name res.1 }
  match res.2 with
  | some e => (svc', .error e)
  | none => (svc', .ok ((res.1.count + (2 ^ 64 - 1)) % 2 ^ 64))

/-- The combined indices of the rules matched by a tag filter: indexed-list
positions first, then non-indexed positions shifted by the indexed length
(shared by `update_rule` and `delete_rule`). -/
def tagIndexes (g : SecurityGroup) (tag : TagMap) : List Nat :=
  (g.list_indexed.enum.filter (fun p => tag.matches p.2.tags)).map Prod.fst ++
    (g.list_non_indexed.enum.filter (fun p => tag.matches p.2.tags)).map
      (fun p => p.1 + g.list_indexed.length)

/-- `SecurityGroupService::update_rule`: unknown group is an error; `All` is
rejected; `Index` is bounds-checked against the combined count and replaces
one rule; `Tag` replaces all matching rules with the single parsed rule and
no-ops when nothing matches. -/
def SecurityGroupService.update_rule (svc : SecurityGroupService) (group_name : Str)
    (rule_ref : RulesRef) (input : Str) : SecurityGroupService × Except String Unit :=
  match groupsGet svc.groups group_name with
  | none => (svc, .error "group not found")
  | some g =>
    match rule_ref with
    | .All => (svc, .error "please use index or tag to update rule")
    | .Index index =>
      if index ≥ g.count then (svc, .error "index out of range")
      else
        match Rule.parse input with
        | .error e => (svc, .error e)
        | .ok r =>
          ({ svc with groups := groupsInsert svc.groups group_name (g.set_by_index index r) },
            .ok ())
    | .Tag tag =>
      let indexes := tagIndexes g tag
      if indexes ≠ [] then
        match Rule.parse input with
        | .error e => (svc, .error e)
        | .ok r =>
          ({ svc with groups := groupsInsert svc.groups group_name (g.set_many indexes r) },
            .ok ())
      else (svc, .ok ())

/-- `SecurityGroupService::delete_rule`: unknown group is a no-op `Ok`;
`All` resets the group; `Index` is bounds-checked; `Tag` removes all
matching rules and no-ops when nothing matches. -/
def SecurityGroupService.delete_rule (svc : SecurityGroupService) (group_name : Str)
    (rule_ref : RulesRef) : SecurityGroupService × Except String Unit :=
  match groupsGet svc.groups group_name with
  | none => (svc, .ok ())
  | some g =>
    match rule_ref with
    | .All =>
      ({ svc with groups := groupsInsert svc.groups group_name g.reset }, .ok ())
    | .Index index =>
      if index ≥ g.count then (svc, .error "index out of range")
      else
        ({ svc with groups := groupsInsert svc.groups group_name (g.remove_by_index index) },
          .ok ())
    | .Tag tag =>
      let indexes := tagIndexes g tag
      if indexes ≠ [] then
        ({ svc with groups := groupsInsert svc.groups group_name (g.remove_many indexes) },
          .ok ())
      else (svc, .ok ())

/-- `visitor_index_keys` (src/state.rs): the visitor's IP string, its
country if known, its URI with a trailing slash appended when missing, and
the URI itself, in that order. -/
def visitor_index_keys (v : Visitor) : List Str :=
  let keys := [ipToStr v.ip]
  let keys := match v.country with | some c => keys ++ [c] | none => keys
  let keys :=
    match v.uri.getLast? with
    | some lc => if lc ≠ '/' then keys ++ [v.uri ++ ['/']] else keys
    | none => keys
  keys ++ [v.uri]

/-- The index-map probe of `SecurityGroupService::react`: the map's value at
the first present key. -/
def firstKeyHit (m : ReactionMap) : List Str → Option Reaction
  | [] => none
  | k :: ks =>
    match mapGet m k with
    | some r => some r
    | none => firstKeyHit m ks

/-- The scan loop of `SecurityGroupService::react` (and §4.2's full-list
evaluation): first rule producing a reaction wins. -/
def scanRules (rules : List Rule) (v : Visitor) : Option Reaction :=
  match rules with
  | [] => none
  | r :: rest =>
    match r.react v with
    | some x => some x
    | none => scanRules rest v

/-- The store-level part of `SecurityGroupService::react`
(src/state.rs:236-246): probe the index map with the visitor's keys, then
scan the non-indexed list. -/
def SecurityGroup.react (g : SecurityGroup) (v : Visitor) : Option Reaction :=
  match firstKeyHit g.map_indexed (visitor_index_keys v) with
  | some r => some r
  | none => scanRules g.list_non_indexed v

/-- `SecurityGroupService::react`: unknown group or no match falls back to
`HttpStatus(200)`. -/
def SecurityGroupService.react (svc : SecurityGroupService) (group_name : Str)
    (v : Visitor) : Reaction :=
  match groupsGet svc.groups group_name with
  | none => .HttpStatus 200
  | some g =>
    match g.react v with
    | some r => r
    | none => .HttpStatus 200

/-! ## Concrete rules and visitors used by the claims -/

/-- The rule parsed from `"GB,-US,ES"` (the `multiple` unit test). -/
def ruleGB_US_ES : Rule :=
  ⟨[.From (.FromCountry "GB".toList), .Excluding (.FromCountry "US".toList),
    .From (.FromCountry "ES".toList)], [.Any], .HttpStatus 200, []⟩

/-- The rule parsed from `"US,-GB"`. -/
def ruleUS_GB : Rule :=
  ⟨[.From (.FromCountry "US".toList), .Excluding (.FromCountry "GB".toList)],
    [.Any], .HttpStatus 200, []⟩

/-! ## C4: the whole access list is processed, later entries override -/

/-- C4: `Rule.react` walks the entire access list and the final candidate is
the result; for access `"GB,-US,ES"` a `US` visitor gets `None` (the
excluding entry wins over the earlier `GB` non-match and the later `ES`
non-match does not restore it), while for `"US,-GB"` a `US` visitor gets
`Some` of the reaction (the match is not followed by a firing exclusion). -/
theorem C4_access_precedence (v : Visitor) (h : v.country = some "US".toList) :
    Rule.parse "GB,-US,ES".toList = .ok ruleGB_US_ES ∧
    Rule.parse "US,-GB".toList = .ok ruleUS_GB ∧
    ruleGB_US_ES.react v = none ∧
    ruleUS_GB.react v = some (Reaction.HttpStatus 200) := by
  refine ⟨by decide, by decide, ?_, ?_⟩
  · simp [ruleGB_US_ES, Rule.react, reactStep, Rule.match_target, Target.matches,
      Source.matches, h]
  · simp [ruleUS_GB, Rule.react, reactStep, Rule.match_target, Target.matches,
      Source.matches, h]

/-- Witness for C4 at a concrete `US` visitor. -/
theorem C4_access_precedence_witness :
    ruleGB_US_ES.react ⟨some "US".toList, none, ⟨⟨1, by omega⟩, ⟨2, by omega⟩, ⟨3, by omega⟩, ⟨4, by omega⟩⟩, "/".toList⟩ = none ∧
    ruleUS_GB.react ⟨some "US".toList, none, ⟨⟨1, by omega⟩, ⟨2, by omega⟩, ⟨3, by omega⟩, ⟨4, by omega⟩⟩, "/".toList⟩ = some (Reaction.HttpStatus 200) :=
  ⟨(C4_access_precedence _ rfl).2.2.1, (C4_access_precedence _ rfl).2.2.2⟩

/-! ## C8: tag filter semantics -/

/-- C8 counterexample: the filter built from the *empty query string* does
not match a rule with no tags (the empty token lands in the including set,
so the filter is not the match-everything empty filter). -/
theorem C8_counterexample :
    (TagMap.from_query ([] : Str)).matches ([] : List Str) = false := by decide

/-- C8 (amended): `from_query "blacklist,-temp"` matches `["blacklist"]` and
rejects `["blacklist","temp"]`; the *empty filter* `TagMap::new` (used when
no query is given) matches every tag list; but `from_query ""` puts the
empty token in the including set and hence matches exactly the rules
carrying an empty-string tag. -/
theorem C8_tag_filter :
    (TagMap.from_query "blacklist,-temp".toList).matches ["blacklist".toList] = true ∧
    (TagMap.from_query "blacklist,-temp".toList).matches ["blacklist".toList, "temp".toList] = false ∧
    (∀ tags : List Str, TagMap.new.matches tags = true) ∧
    (∀ tags : List Str, ((TagMap.from_query ([] : Str)).matches tags = true ↔ ([] : Str) ∈ tags)) := by
  refine ⟨by decide, by decide, ?_, ?_⟩
  · intro tags
    simp [TagMap.new, TagMap.matches]
  · intro tags
    show (TagMap.mk [[]] []).matches tags = true ↔ ([] : Str) ∈ tags
    simp only [TagMap.matches]
    rw [if_neg (by simp)]
    rw [if_neg (by simp [List.contains])]
    rw [if_neg (by simp)]
    simp only [List.any_eq_true, List.contains_cons, List.contains_nil, Bool.or_false,
      beq_iff_eq]
    constructor
    · rintro ⟨t, ht, rfl⟩
      exact ht
    · intro h
      exact ⟨[], h, rfl⟩

/-! ## Split/join inverses needed for the grammar claims -/

/-- Joining the pieces of a split recovers the original string. -/
theorem intercalateC_splitOnC (c : Char) (s : Str) :
    intercalateC c (splitOnC c s) = s := by
  induction s with
  | nil => rfl
  | cons x xs ih =>
    simp only [splitOnC]
    by_cases hx : x = c
    · rw [if_pos hx]
      cases hsp : splitOnC c xs with
      | nil => exact absurd hsp (splitOnC_ne_nil c xs)
      | cons y ys =>
        rw [hsp] at ih
        show [] ++ c :: intercalateC c (y :: ys) = x :: xs
        rw [List.nil_append, ih, hx]
    · rw [if_neg hx]
      cases hsp : splitOnC c xs with
      | nil => exact absurd hsp (splitOnC_ne_nil c xs)
      | cons y ys =>
        rw [hsp] at ih
        cases ys with
        | nil =>
          show x :: y = x :: xs
          show x :: y = x :: xs
          have : y = xs := ih
          rw [this]
        | cons z zs =>
          show (x :: y) ++ c :: intercalateC c (z :: zs) = x :: xs
          have : y ++ c :: intercalateC c (z :: zs) = xs := ih
          rw [List.cons_append, this]

/-- A character of one piece of a join is a character of the join. -/
theorem mem_intercalateC_of_mem {c : Char} {xss : List Str} {p : Str} {a : Char}
    (hp : p ∈ xss) (ha : a ∈ p) : a ∈ intercalateC c xss := by
  induction xss with
  | nil => exact absurd hp (List.not_mem_nil p)
  | cons x xs ih =>
    cases xs with
    | nil =>
      simp only [List.mem_singleton] at hp
      subst hp
      exact ha
    | cons y ys =>
      show a ∈ x ++ c :: intercalateC c (y :: ys)
      rcases List.mem_cons.mp hp with h | h
      · subst h
        exact List.mem_append_left _ ha
      · exact List.mem_append_right _ (List.mem_cons_of_mem c (ih h))

/-- A character of one piece of a split is a character of the original. -/
theorem mem_of_mem_splitOnC {c : Char} {s p : Str} (hp : p ∈ splitOnC c s)
    {a : Char} (ha : a ∈ p) : a ∈ s := by
  have := mem_intercalateC_of_mem (c := c) hp ha
  rwa [intercalateC_splitOnC] at this

/-! ## C10: four or more pipe segments never panic -/

/-- C10: for a line whose pre-tag portion splits into four or more
`|`-segments, `Rule.parse` behaves exactly as on the line rebuilt from the
first two segments alone (segment 0 is the `u16` status, segment 1 the
access/target text, everything from the third segment on is ignored), and
in particular never reads out of bounds. -/
theorem C10_extra_segments (s p0 p1 : Str) (ps : List Str)
    (h : splitOnC '|' ((splitOnC '#' s).headD s) = p0 :: p1 :: ps)
    (hlen : 2 ≤ ps.length) :
    Rule.parse s =
      Rule.parse (intercalateC '#' ((p0 ++ '|' :: p1) :: (splitOnC '#' s).tail)) := by
  cases hwt : splitOnC '#' s with
  | nil => exact absurd hwt (splitOnC_ne_nil _ _)
  | cons first rest =>
    rw [hwt] at h
    simp only [List.headD_cons, List.tail_cons] at h ⊢
    have hfirst_mem : first ∈ splitOnC '#' s := hwt ▸ List.mem_cons_self _ _
    have hfirst_free : '#' ∉ first := not_mem_of_mem_splitOnC hfirst_mem
    have hp0_mem : p0 ∈ splitOnC '|' first := h ▸ List.mem_cons_self _ _
    have hp1_mem : p1 ∈ splitOnC '|' first :=
      h ▸ List.mem_cons_of_mem _ (List.mem_cons_self _ _)
    have hp0_pipe : '|' ∉ p0 := not_mem_of_mem_splitOnC hp0_mem
    have hp1_pipe : '|' ∉ p1 := not_mem_of_mem_splitOnC hp1_mem
    have hmid_hash : '#' ∉ p0 ++ '|' :: p1 := by
      intro hmem
      rcases List.mem_append.mp hmem with hmem | hmem
      · exact hfirst_free (mem_of_mem_splitOnC hp0_mem hmem)
      · rcases List.mem_cons.mp hmem with hmem | hmem
        · exact absurd hmem (by decide)
        · exact hfirst_free (mem_of_mem_splitOnC hp1_mem hmem)
    have hsplit' :
        splitOnC '#' (intercalateC '#' ((p0 ++ '|' :: p1) :: rest)) =
          (p0 ++ '|' :: p1) :: rest := by
      refine splitOnC_intercalateC (by simp) ?_
      intro piece hpiece
      rcases List.mem_cons.mp hpiece with hpiece | hpiece
      · subst hpiece
        exact hmid_hash
      · exact not_mem_of_mem_splitOnC (hwt ▸ List.mem_cons_of_mem _ hpiece)
    have hx : Reaction.extract first = Reaction.extract (p0 ++ '|' :: p1) := by
      simp only [Reaction.extract]
      rw [h, splitOnC_append_cons hp0_pipe, splitOnC_of_not_mem hp1_pipe]
      obtain ⟨a, b, t, rfl⟩ : ∃ a b t, ps = a :: b :: t := by
        cases ps with
        | nil => simp at hlen
        | cons a ps' =>
          cases ps' with
          | nil => simp at hlen
          | cons b t => exact ⟨a, b, t, rfl⟩
      rfl
    simp only [Rule.parse, hwt, hsplit']
    cases rest with
    | nil =>
      have hs_first : s = first := by
        have := intercalateC_splitOnC '#' s
        rw [hwt] at this
        exact this.symm
      rw [hs_first, hx]
      rfl
    | cons second more =>
      rw [hx]

/-- Witness for C10 on the concrete line `404|US|x|y`. -/
theorem C10_extra_segments_witness :
    splitOnC '|' ((splitOnC '#' "404|US|x|y".toList).headD "404|US|x|y".toList) =
      "404".toList :: "US".toList :: ["x".toList, "y".toList] ∧
    Rule.parse "404|US|x|y".toList =
      Rule.parse (intercalateC '#'
        (("404".toList ++ '|' :: "US".toList) :: (splitOnC '#' "404|US|x|y".toList).tail)) :=
  ⟨by decide, C10_extra_segments _ _ _ ["x".toList, "y".toList] (by decide) (by decide)⟩

/-! ## C9: error handling of update_rule / delete_rule -/

/-- The second component of an `enum` entry is an element of the list. -/
theorem snd_mem_of_mem_enum {l : List α} {p : Nat × α} (hp : p ∈ l.enum) : p.2 ∈ l := by
  have h := List.mem_enum_iff_getElem?.mp hp
  exact List.getElem?_eq_some_iff.mp h |>.choose_spec ▸ l.getElem_mem _

/-- A tag filter that matches no rule of the group yields no combined
indices. -/
theorem tagIndexes_eq_nil {g : SecurityGroup} {tag : TagMap}
    (h : ∀ r ∈ g.list_indexed ++ g.list_non_indexed, tag.matches r.tags = false) :
    tagIndexes g tag = [] := by
  have h1 : ∀ r ∈ g.list_indexed, tag.matches r.tags = false :=
    fun r hr => h r (List.mem_append_left _ hr)
  have h2 : ∀ r ∈ g.list_non_indexed, tag.matches r.tags = false :=
    fun r hr => h r (List.mem_append_right _ hr)
  unfold tagIndexes
  rw [List.append_eq_nil]
  constructor
  · rw [List.map_eq_nil_iff, List.filter_eq_nil_iff]
    intro p hp
    have hmem : p.2 ∈ g.list_indexed := snd_mem_of_mem_enum hp
    simp [h1 p.2 hmem]
  · rw [List.map_eq_nil_iff, List.filter_eq_nil_iff]
    intro p hp
    have hmem : p.2 ∈ g.list_non_indexed := snd_mem_of_mem_enum hp
    simp [h2 p.2 hmem]

/-- C9: with `ByIndex(i)` at or beyond the combined count, `update_rule` and
`delete_rule` fail and leave the service unchanged; `delete_rule` on an
unknown group is `Ok` and changes nothing; `update_rule`/`delete_rule` with
a `ByTag` filter matching no rule are `Ok` and change nothing. -/
theorem C9_not_found_semantics :
    (∀ (svc : SecurityGroupService) (gname : Str) (g : SecurityGroup) (i : Nat) (input : Str),
      groupsGet svc.groups gname = some g → i ≥ g.count →
      svc.update_rule gname (.Index i) input = (svc, .error "index out of range")) ∧
    (∀ (svc : SecurityGroupService) (gname : Str) (g : SecurityGroup) (i : Nat),
      groupsGet svc.groups gname = some g → i ≥ g.count →
      svc.delete_rule gname (.Index i) = (svc, .error "index out of range")) ∧
    (∀ (svc : SecurityGroupService) (gname : Str) (rref : RulesRef),
      groupsGet svc.groups gname = none →
      svc.delete_rule gname rref = (svc, .ok ())) ∧
    (∀ (svc : SecurityGroupService) (gname : Str) (g : SecurityGroup) (tag : TagMap)
        (input : Str),
      groupsGet svc.groups gname = some g →
      (∀ r ∈ g.list_indexed ++ g.list_non_indexed, tag.matches r.tags = false) →
      svc.update_rule gname (.Tag tag) input = (svc, .ok ())) ∧
    (∀ (svc : SecurityGroupService) (gname : Str) (g : SecurityGroup) (tag : TagMap),
      groupsGet svc.groups gname = some g →
      (∀ r ∈ g.list_indexed ++ g.list_non_indexed, tag.matches r.tags = false) →
      svc.delete_rule gname (.Tag tag) = (svc, .ok ())) := by
  refine ⟨?_, ?_, ?_, ?_, ?_⟩
  · intro svc gname g i input hget hi
    simp only [SecurityGroupService.update_rule, hget]
    rw [if_pos hi]
  · intro svc gname g i hget hi
    simp only [SecurityGroupService.delete_rule, hget]
    rw [if_pos hi]
  · intro svc gname rref hget
    simp only [SecurityGroupService.delete_rule, hget]
  · intro svc gname g tag input hget hall
    simp only [SecurityGroupService.update_rule, hget, tagIndexes_eq_nil hall]
    rw [if_neg (by simp)]
  · intro svc gname g tag hget hall
    simp only [SecurityGroupService.delete_rule, hget, tagIndexes_eq_nil hall]
    rw [if_neg (by simp)]

/-- The deny-all rule `403|*` (no index keys, lands in the scan list). -/
def ruleDenyAll : Rule := ⟨[.From .Any], [.Any], .HttpStatus 403, []⟩

/-- A one-rule group used by the C9 witness. -/
def sgC9 : SecurityGroup := (SecurityGroup.new "g".toList).add ruleDenyAll

/-- A one-group service used by the C9 witness. -/
def svcC9 : SecurityGroupService := ⟨[], [("g".toList, sgC9)]⟩

/-- Witness for C9 on a concrete one-rule service: out-of-range index 5,
unknown group `"h"`, and the non-matching filter `"zz"`. -/
theorem C9_not_found_semantics_witness :
    svcC9.update_rule "g".toList (.Index 5) "401|US".toList =
      (svcC9, .error "index out of range") ∧
    svcC9.delete_rule "g".toList (.Index 5) = (svcC9, .error "index out of range") ∧
    svcC9.delete_rule "h".toList .All = (svcC9, .ok ()) ∧
    svcC9.update_rule "g".toList (.Tag (TagMap.from_query "zz".toList)) "401|US".toList =
      (svcC9, .ok ()) ∧
    svcC9.delete_rule "g".toList (.Tag (TagMap.from_query "zz".toList)) = (svcC9, .ok ()) :=
  ⟨C9_not_found_semantics.1 svcC9 _ sgC9 5 _ (by decide) (by decide),
   C9_not_found_semantics.2.1 svcC9 _ sgC9 5 (by decide) (by decide),
   C9_not_found_semantics.2.2.1 svcC9 _ .All (by decide),
   C9_not_found_semantics.2.2.2.1 svcC9 _ sgC9 _ _ (by decide) (by decide),
   C9_not_found_semantics.2.2.2.2 svcC9 _ sgC9 _ (by decide) (by decide)⟩

/-! ## C6: the remove_many non-indexed rebuild filters the indexed list -/

/-- The index buckets accumulated by the `remove_many` loop: positions below
the indexed length, and the others translated by subtracting it. -/
theorem remove_many_fold_buckets (g : SecurityGroup) (idxs : List Nat) :
    ∀ acc : ReactionMap × List Nat × List Nat,
      (idxs.foldl (removeStep g) acc).2.1 =
        acc.2.1 ++ idxs.filter (fun i => i < g.list_indexed.length) ∧
      (idxs.foldl (removeStep g) acc).2.2 =
        acc.2.2 ++ idxs.filterMap (fun i =>
          if i < g.list_indexed.length then none
          else some (i - g.list_indexed.length)) := by
  induction idxs with
  | nil => intro acc; simp
  | cons i idxs ih =>
    intro acc
    simp only [List.foldl_cons, List.filter_cons, List.filterMap_cons]
    by_cases hi : i < g.list_indexed.length
    · have hstep : removeStep g acc i =
          (((g.list_indexed.get ⟨i, hi⟩).index_keys).foldl mapRemove acc.1,
            acc.2.1 ++ [i], acc.2.2) := by
        unfold removeStep
        rw [dif_pos hi]
      rw [hstep]
      rcases ih _ with ⟨h1, h2⟩
      rw [h1, h2]
      simp [hi]
    · have hstep : removeStep g acc i =
          (acc.1, acc.2.1, acc.2.2 ++ [i - g.list_indexed.length]) := by
        unfold removeStep
        rw [dif_neg hi]
      rw [hstep]
      rcases ih _ with ⟨h1, h2⟩
      rw [h1, h2]
      simp [hi]

/-- C6: when at least one index lies in the non-indexed range, the new
non-indexed list is produced by position-filtering the *indexed* list (as
it stands after the indexed-range removals of the same call) with the
translated offsets — the old non-indexed list itself is discarded. -/
theorem C6_nonindexed_rebuild_uses_indexed (g : SecurityGroup) (indexes : List Nat)
    (h : ∃ i ∈ indexes, g.list_indexed.length ≤ i) :
    (g.remove_many indexes).list_non_indexed =
      ((g.remove_many indexes).list_indexed.enum.filter (fun p =>
        ¬ (indexes.filterMap (fun i =>
            if i < g.list_indexed.length then none
            else some (i - g.list_indexed.length))).contains p.1)).map Prod.snd := by
  obtain ⟨i, hi, hle⟩ := h
  have hmem : (i - g.list_indexed.length) ∈ indexes.filterMap (fun i =>
      if i < g.list_indexed.length then none
      else some (i - g.list_indexed.length)) :=
    List.mem_filterMap.mpr ⟨i, hi, by rw [if_neg (Nat.not_lt.mpr hle)]⟩
  unfold SecurityGroup.remove_many
  rcases remove_many_fold_buckets g indexes (g.map_indexed, [], []) with ⟨-, h2⟩
  simp only [h2, List.nil_append]
  rw [if_pos (List.ne_nil_of_mem hmem)]

/-- The group built from the lines `403|ES` (indexed) and `401|*`
(non-indexed), shared by the C6 witness. -/
def sgTwo : SecurityGroup :=
  SecurityGroup.from_lines "default".toList ["403|ES".toList, "401|*".toList]

/-- Witness for C6: removing combined index 1 (the only non-indexed rule)
from `sgTwo` rebuilds the non-indexed list from the indexed list; and the
mixed removal `[0, 1]` (one indexed, one non-indexed position) filters the
*already-shrunk* indexed list. -/
theorem C6_nonindexed_rebuild_uses_indexed_witness :
    ((1 ∈ [1] ∧ sgTwo.list_indexed.length ≤ 1) ∧
    (sgTwo.remove_many [1]).list_non_indexed =
      ((sgTwo.remove_many [1]).list_indexed.enum.filter (fun p =>
        ¬ (([1] : List Nat).filterMap (fun i =>
            if i < sgTwo.list_indexed.length then none
            else some (i - sgTwo.list_indexed.length))).contains p.1)).map Prod.snd) ∧
    ((1 ∈ [0, 1] ∧ sgTwo.list_indexed.length ≤ 1) ∧
    (sgTwo.remove_many [0, 1]).list_non_indexed =
      ((sgTwo.remove_many [0, 1]).list_indexed.enum.filter (fun p =>
        ¬ (([0, 1] : List Nat).filterMap (fun i =>
            if i < sgTwo.list_indexed.length then none
            else some (i - sgTwo.list_indexed.length))).contains p.1)).map Prod.snd) :=
  ⟨⟨⟨by decide, by decide⟩,
    C6_nonindexed_rebuild_uses_indexed sgTwo [1] ⟨1, by decide, by decide⟩⟩,
   ⟨⟨by decide, by decide⟩,
    C6_nonindexed_rebuild_uses_indexed sgTwo [0, 1] ⟨1, by decide, by decide⟩⟩⟩

/-! ## C5: store invariants under sequences of operations -/

/-- `mapGet` after `mapInsert`. -/
theorem mapGet_mapInsert (m : ReactionMap) (k k' : Str) (v : Reaction) :
    mapGet (mapInsert m k v) k' = if k = k' then some v else mapGet m k' := by
  induction m with
  | nil =>
    simp only [mapInsert, mapGet]
  | cons a rest ih =>
    obtain ⟨ak, av⟩ := a
    by_cases hak : ak = k
    · subst hak
      by_cases hkk' : ak = k' <;> simp [mapInsert, mapGet, hkk']
    · by_cases hak' : ak = k' <;> by_cases hkk' : k = k' <;>
        simp_all [mapInsert, mapGet]

/-- `mapGet` after inserting one value under every key of a list. -/
theorem mapGet_foldl_mapInsert (ks : List Str) (v : Reaction) :
    ∀ (m : ReactionMap) (k : Str),
      mapGet (ks.foldl (fun m k' => mapInsert m k' v) m) k =
        if k ∈ ks then some v else mapGet m k := by
  induction ks with
  | nil => intro m k; simp
  | cons k0 ks ih =>
    intro m k
    simp only [List.foldl_cons, ih, mapGet_mapInsert, List.mem_cons]
    by_cases hks : k ∈ ks
    · rw [if_pos hks, if_pos (Or.inr hks)]
    · rw [if_neg hks]
      by_cases hk0 : k0 = k
      · rw [if_pos hk0, if_pos (Or.inl hk0.symm)]
      · rw [if_neg hk0, if_neg (by rintro (h | h); exact hk0 h.symm; exact hks h)]

/-- `mapGet` after one `add`: the rule's keys (if any) now map to its
reaction, everything else is unchanged. -/
theorem mapGet_add (g : SecurityGroup) (r : Rule) (k : Str) :
    mapGet (g.add r).map_indexed k =
      if k ∈ r.index_keys then some r.reaction else mapGet g.map_indexed k := by
  unfold SecurityGroup.add
  by_cases hk : r.index_keys = []
  · rw [if_neg (by simpa using hk)]
    rw [hk]
    simp
  · rw [if_pos (by simpa using hk)]
    exact mapGet_foldl_mapInsert r.index_keys r.reaction g.map_indexed k

/-- The indexed and non-indexed lists of a store built by successive adds:
a partition of the added rules by whether they produce index keys. -/
theorem foldAdd_lists (rs : List Rule) :
    ∀ g : SecurityGroup,
      (rs.foldl SecurityGroup.add g).list_indexed =
        g.list_indexed ++ rs.filter (fun r => ¬ r.index_keys = []) ∧
      (rs.foldl SecurityGroup.add g).list_non_indexed =
        g.list_non_indexed ++ rs.filter (fun r => r.index_keys = []) := by
  induction rs with
  | nil => intro g; simp
  | cons r rs ih =>
    intro g
    simp only [List.foldl_cons, List.filter_cons]
    rcases ih (g.add r) with ⟨h1, h2⟩
    rw [h1, h2]
    unfold SecurityGroup.add
    by_cases hk : r.index_keys = []
    · rw [if_neg (by simpa using hk)]
      simp [hk]
    · rw [if_pos (by simpa using hk)]
      simp [hk]

/-- The index map of a store built by successive adds: the value under a
key is the reaction of the most recently added rule producing that key. -/
theorem mapGet_foldAdd (rs : List Rule) :
    ∀ (g : SecurityGroup) (k : Str),
      mapGet (rs.foldl SecurityGroup.add g).map_indexed k =
        match (rs.filter (fun r => r.index_keys.contains k)).getLast? with
        | some r => some r.reaction
        | none => mapGet g.map_indexed k := by
  induction rs with
  | nil => intro g k; simp
  | cons r rs ih =>
    intro g k
    simp only [List.foldl_cons, ih, List.filter_cons]
    by_cases hk : k ∈ r.index_keys
    · rw [if_pos (List.elem_iff.mpr hk)]
      cases hfl : (rs.filter (fun r => r.index_keys.contains k)) with
      | nil =>
        show mapGet (g.add r).map_indexed k = _
        rw [mapGet_add, if_pos hk]
        rfl
      | cons r' rest =>
        rw [List.getLast?_cons_cons]
        rw [List.getLast?_eq_getLast (r' :: rest) (by simp)]
    · rw [if_neg (fun hc => hk (List.elem_iff.mp hc))]
      cases hfl : (rs.filter (fun r => r.index_keys.contains k)) with
      | nil =>
        show mapGet (g.add r).map_indexed k = mapGet g.map_indexed k
        rw [mapGet_add, if_neg hk]
      | cons r' rest =>
        rw [List.getLast?_eq_getLast (r' :: rest) (by simp)]

/-- C5 counterexample input: `401|US` then `403|US,GB`. -/
def ruleUS401 : Rule := ⟨[.From (.FromCountry "US".toList)], [.Any], .HttpStatus 401, []⟩

/-- Second C5 counterexample rule, sharing the key `US`. -/
def ruleUSGB403 : Rule :=
  ⟨[.From (.FromCountry "US".toList), .From (.FromCountry "GB".toList)],
    [.Any], .HttpStatus 403, []⟩

/-- The store after `add 401|US; add 403|US,GB; remove_by_index 1`. -/
def sgC5 : SecurityGroup :=
  (((SecurityGroup.new "g".toList).add ruleUS401).add ruleUSGB403).remove_by_index 1

/-- C5 counterexample: after the removal, `401|US` is still in the indexed
list but none of its index keys is present in the map — removing `403|US,GB`
dropped the shared key `US`, so the claimed invariant fails for this
operation sequence. -/
theorem C5_counterexample :
    ruleUS401 ∈ sgC5.list_indexed ∧
      ∀ k ∈ ruleUS401.index_keys, mapGet sgC5.map_indexed k = none := by decide

/-- C5 (amended): sequences of `Store.add` calls (with no removals or
replacements) preserve the invariant: every indexed rule has a key in the
map, and the map's value under a key is the reaction of the most recently
added rule producing that key.  (The hypothesis mirrors the source's
requirement that rules carry nonempty access and target lists; parsing
always produces such rules.) -/
theorem C5_add_invariant (nm : Str) (rs : List Rule)
    (_hwf : ∀ r ∈ rs, r.access ≠ [] ∧ r.target ≠ []) :
    (∀ r ∈ (rs.foldl SecurityGroup.add (SecurityGroup.new nm)).list_indexed,
      ∃ k ∈ r.index_keys,
        (mapGet (rs.foldl SecurityGroup.add (SecurityGroup.new nm)).map_indexed k).isSome) ∧
    (∀ k : Str,
      mapGet (rs.foldl SecurityGroup.add (SecurityGroup.new nm)).map_indexed k =
        ((rs.filter (fun r => r.index_keys.contains k)).getLast?).map Rule.reaction) := by
  have hmap : ∀ k : Str,
      mapGet (rs.foldl SecurityGroup.add (SecurityGroup.new nm)).map_indexed k =
        ((rs.filter (fun r => r.index_keys.contains k)).getLast?).map Rule.reaction := by
    intro k
    rw [mapGet_foldAdd rs (SecurityGroup.new nm) k]
    cases (rs.filter (fun r => r.index_keys.contains k)).getLast? with
    | none => rfl
    | some r => rfl
  refine ⟨?_, hmap⟩
  intro r hr
  rw [(foldAdd_lists rs (SecurityGroup.new nm)).1] at hr
  simp only [SecurityGroup.new, List.nil_append] at hr
  have hne : ¬ r.index_keys = [] := by
    have := List.of_mem_filter hr
    simpa using this
  cases hks : r.index_keys with
  | nil => exact absurd hks hne
  | cons k ks =>
    refine ⟨k, List.mem_cons_self _ _, ?_⟩
    rw [hmap k]
    have hrmem : r ∈ rs.filter (fun r => r.index_keys.contains k) := by
      refine List.mem_filter.mpr ⟨List.mem_of_mem_filter hr, ?_⟩
      simp [List.elem_iff, hks]
    rw [List.getLast?_eq_getLast _ (List.ne_nil_of_mem hrmem)]
    rfl

/-- Witness for C5 on the two-rule add sequence (before any removal). -/
theorem C5_add_invariant_witness :
    (∀ r ∈ [ruleUS401, ruleUSGB403], r.access ≠ [] ∧ r.target ≠ []) ∧
    (∀ r ∈ ([ruleUS401, ruleUSGB403].foldl SecurityGroup.add
        (SecurityGroup.new "g".toList)).list_indexed,
      ∃ k ∈ r.index_keys,
        (mapGet ([ruleUS401, ruleUSGB403].foldl SecurityGroup.add
          (SecurityGroup.new "g".toList)).map_indexed k).isSome) :=
  ⟨by decide, (C5_add_invariant "g".toList [ruleUS401, ruleUSGB403] (by decide)).1⟩

/-! ## C7: create_rule -/

/-- `add` always grows the combined count by one. -/
theorem add_count (g : SecurityGroup) (r : Rule) : (g.add r).count = g.count + 1 := by
  by_cases hk : r.index_keys = [] <;>
    simp [SecurityGroup.add, SecurityGroup.count, hk] <;> omega

/-- When every non-blank line parses, the line loop reports no error and
adds one rule per non-blank line. -/
theorem addLines_ok (ls : List Str) :
    ∀ g : SecurityGroup,
      (∀ l ∈ ls, 0 < (trimStr l).length → (Rule.parse (trimStr l)).isOk = true) →
      (addLines g ls).2 = none ∧
      (addLines g ls).1.count =
        g.count + ls.countP (fun l => decide (0 < (trimStr l).length)) := by
  induction ls with
  | nil => intro g _; simp [addLines]
  | cons l ls ih =>
    intro g h
    simp only [addLines]
    by_cases hb : 0 < (trimStr l).length
    · rw [if_pos hb]
      have hok := h l (List.mem_cons_self _ _) hb
      cases hp : Rule.parse (trimStr l) with
      | error e => rw [hp] at hok; simp [Except.isOk, Except.toBool] at hok
      | ok r =>
        rcases ih (g.add r) (fun l' hl' => h l' (List.mem_cons_of_mem _ hl')) with ⟨h1, h2⟩
        refine ⟨h1, ?_⟩
        show (addLines (g.add r) ls).1.count =
          g.count + List.countP (fun l => decide (0 < (trimStr l).length)) (l :: ls)
        rw [h2, add_count, List.countP_cons]
        simp only [hb, decide_True, if_true]
        omega
    · rw [if_neg hb]
      rcases ih g (fun l' hl' => h l' (List.mem_cons_of_mem _ hl')) with ⟨h1, h2⟩
      refine ⟨h1, ?_⟩
      show (addLines g ls).1.count =
        g.count + List.countP (fun l => decide (0 < (trimStr l).length)) (l :: ls)
      rw [h2, List.countP_cons]
      simp [hb]

/-- When the lines decompose into parsing non-blank lines, then a failing
line: the loop stops with that error, having applied the earlier adds. -/
theorem addLines_err (pre : List Str) :
    ∀ (g : SecurityGroup) (l : Str) (post : List Str) (e : String),
      (∀ l' ∈ pre, 0 < (trimStr l').length → (Rule.parse (trimStr l')).isOk = true) →
      0 < (trimStr l).length → Rule.parse (trimStr l) = .error e →
      (addLines g (pre ++ l :: post)).2 = some e ∧
      (addLines g (pre ++ l :: post)).1.count =
        g.count + pre.countP (fun l' => decide (0 < (trimStr l').length)) := by
  induction pre with
  | nil =>
    intro g l post e _ hl he
    simp only [List.nil_append, addLines]
    rw [if_pos hl, he]
    simp
  | cons p pre ih =>
    intro g l post e hpre hl he
    simp only [List.cons_append, addLines]
    by_cases hb : 0 < (trimStr p).length
    · rw [if_pos hb]
      have hok := hpre p (List.mem_cons_self _ _) hb
      cases hp : Rule.parse (trimStr p) with
      | error e' => rw [hp] at hok; simp [Except.isOk, Except.toBool] at hok
      | ok r =>
        rcases ih (g.add r) l post e
          (fun l' hl' => hpre l' (List.mem_cons_of_mem _ hl')) hl he with ⟨h1, h2⟩
        refine ⟨h1, ?_⟩
        show (addLines (g.add r) (pre ++ l :: post)).1.count =
          g.count + List.countP (fun l' => decide (0 < (trimStr l').length)) (p :: pre)
        rw [h2, add_count, List.countP_cons]
        simp only [hb, decide_True, if_true]
        omega
    · rw [if_neg hb]
      rcases ih g l post e
        (fun l' hl' => hpre l' (List.mem_cons_of_mem _ hl')) hl he with ⟨h1, h2⟩
      refine ⟨h1, ?_⟩
      show (addLines g (pre ++ l :: post)).1.count =
        g.count + List.countP (fun l' => decide (0 < (trimStr l').length)) (p :: pre)
      rw [h2, List.countP_cons]
      simp [hb]

/-- C7 (amended): `create_rule` get-or-creates the group, adds one parsed
rule per non-blank line, and returns `Ok` of the `usize` value
`count() - 1` for the group's *new rule count* — which is the plain count
minus one whenever the count is nonzero (and even then the combined index
of the last rule added only when that rule landed in the non-indexed list,
or the non-indexed list is empty), and the underflow wrap-around
`usize::MAX` when no rule was ever added to a fresh group (a debug-build
panic); if a line fails to parse it returns that error, with the rules
from the earlier lines of the same call already applied. -/
theorem C7_create_rule (svc : SecurityGroupService) (gname : Str) (text : Str) :
    ((∀ l ∈ rustLines text, 0 < (trimStr l).length → (Rule.parse (trimStr l)).isOk = true) →
      ∃ g1 : SecurityGroup,
        svc.create_rule gname text =
          ({ svc with groups := groupsInsert svc.groups gname g1 },
            .ok ((g1.count + (2 ^ 64 - 1)) % 2 ^ 64)) ∧
        g1.count = ((groupsGet svc.groups gname).getD (SecurityGroup.new gname)).count +
          (rustLines text).countP (fun l => decide (0 < (trimStr l).length)) ∧
        (0 < g1.count → g1.count < 2 ^ 64 →
          (g1.count + (2 ^ 64 - 1)) % 2 ^ 64 = g1.count - 1) ∧
        (g1.count = 0 → (g1.count + (2 ^ 64 - 1)) % 2 ^ 64 = 2 ^ 64 - 1)) ∧
    (∀ (pre : List Str) (l : Str) (post : List Str) (e : String),
      rustLines text = pre ++ l :: post →
      (∀ l' ∈ pre, 0 < (trimStr l').length → (Rule.parse (trimStr l')).isOk = true) →
      0 < (trimStr l).length → Rule.parse (trimStr l) = .error e →
      ∃ g1 : SecurityGroup,
        svc.create_rule gname text =
          ({ svc with groups := groupsInsert svc.groups gname g1 }, .error e) ∧
        g1.count = ((groupsGet svc.groups gname).getD (SecurityGroup.new gname)).count +
          pre.countP (fun l' => decide (0 < (trimStr l').length))) := by
  constructor
  · intro hok
    obtain ⟨h1, h2⟩ := addLines_ok (rustLines text)
      ((groupsGet svc.groups gname).getD (SecurityGroup.new gname)) hok
    refine ⟨(addLines ((groupsGet svc.groups gname).getD (SecurityGroup.new gname))
      (rustLines text)).1, ?_, h2, ?_, ?_⟩
    · simp only [SecurityGroupService.create_rule]
      rw [h1]
    · intro hpos hlt
      have hp : (2 : Nat) ^ 64 = 18446744073709551616 := by norm_num
      rw [hp] at hlt ⊢
      omega
    · intro h0
      rw [h0]
      decide
  · intro pre l post e hdec hpre hl he
    obtain ⟨h1, h2⟩ := addLines_err pre
      ((groupsGet svc.groups gname).getD (SecurityGroup.new gname)) l post e hpre hl he
    rw [← hdec] at h1 h2
    refine ⟨(addLines ((groupsGet svc.groups gname).getD (SecurityGroup.new gname))
      (rustLines text)).1, ?_, h2⟩
    simp only [SecurityGroupService.create_rule]
    rw [h1]

/-- The empty service (no storage path, no groups). -/
def svcEmpty : SecurityGroupService := ⟨[], []⟩

/-- The rule parsed from `401|*`. -/
def ruleStar401 : Rule := ⟨[.From .Any], [.Any], .HttpStatus 401, []⟩

/-- The rule parsed from `403|US`. -/
def ruleUS403 : Rule := ⟨[.From (.FromCountry "US".toList)], [.Any], .HttpStatus 403, []⟩

/-- C7 counterexample: adding `401|*` (non-indexed) then `403|US` (indexed)
to a fresh group returns index 1, but the combined index of the last rule
added (`403|US`, which went to the indexed list) is 0. -/
theorem C7_counterexample :
    (svcEmpty.create_rule "g".toList "401|*\n403|US".toList).2 = .ok 1 ∧
    Rule.parse "403|US".toList = .ok ruleUS403 ∧
    (let g := (groupsGet (svcEmpty.create_rule "g".toList "401|*\n403|US".toList).1.groups
        "g".toList).getD (SecurityGroup.new []);
      (g.list_indexed ++ g.list_non_indexed)[0]? = some ruleUS403 ∧
      (g.list_indexed ++ g.list_non_indexed)[1]? = some ruleStar401) := by decide

/-- Witness for C7: a successful call on `403|US` (count 1, so the return
value is 0), a call with empty text on a fresh group (count 0, so the
`usize` subtraction wraps), and a failing call on `403|US` then `bad|US`. -/
theorem C7_create_rule_witness :
    (∃ g1 : SecurityGroup,
      svcEmpty.create_rule "g".toList "403|US".toList =
        ({ svcEmpty with groups := groupsInsert svcEmpty.groups "g".toList g1 },
          .ok ((g1.count + (2 ^ 64 - 1)) % 2 ^ 64)) ∧
      g1.count = ((groupsGet svcEmpty.groups "g".toList).getD
        (SecurityGroup.new "g".toList)).count +
        (rustLines "403|US".toList).countP (fun l => decide (0 < (trimStr l).length)) ∧
      (0 < g1.count → g1.count < 2 ^ 64 →
        (g1.count + (2 ^ 64 - 1)) % 2 ^ 64 = g1.count - 1) ∧
      (g1.count = 0 → (g1.count + (2 ^ 64 - 1)) % 2 ^ 64 = 2 ^ 64 - 1)) ∧
    (∃ g1 : SecurityGroup,
      svcEmpty.create_rule "g".toList ("".toList) =
        ({ svcEmpty with groups := groupsInsert svcEmpty.groups "g".toList g1 },
          .ok ((g1.count + (2 ^ 64 - 1)) % 2 ^ 64)) ∧
      g1.count = ((groupsGet svcEmpty.groups "g".toList).getD
        (SecurityGroup.new "g".toList)).count +
        (rustLines ("".toList)).countP (fun l => decide (0 < (trimStr l).length)) ∧
      (0 < g1.count → g1.count < 2 ^ 64 →
        (g1.count + (2 ^ 64 - 1)) % 2 ^ 64 = g1.count - 1) ∧
      (g1.count = 0 → (g1.count + (2 ^ 64 - 1)) % 2 ^ 64 = 2 ^ 64 - 1)) ∧
    (∃ g1 : SecurityGroup,
      svcEmpty.create_rule "g".toList "403|US\nbad|US".toList =
        ({ svcEmpty with groups := groupsInsert svcEmpty.groups "g".toList g1 },
          .error "invalid HTTP status") ∧
      g1.count = ((groupsGet svcEmpty.groups "g".toList).getD
        (SecurityGroup.new "g".toList)).count +
        ["403|US".toList].countP (fun l' => decide (0 < (trimStr l').length))) :=
  ⟨(C7_create_rule svcEmpty "g".toList "403|US".toList).1 (by decide),
   (C7_create_rule svcEmpty "g".toList ("".toList)).1 (by decide),
   (C7_create_rule svcEmpty "g".toList "403|US\nbad|US".toList).2
     ["403|US".toList] "bad|US".toList [] "invalid HTTP status"
     (by decide) (by decide) (by decide) (by decide)⟩

/-! ## C3: the end-to-end three-line scenario -/

/-- The rule parsed from `401|-JP`: only an `Excluding` entry. -/
def ruleJP401 : Rule :=
  ⟨[.Excluding (.FromCountry "JP".toList)], [.Any], .HttpStatus 401, []⟩

/-- The rule parsed from `403|ES`. -/
def ruleES403 : Rule :=
  ⟨[.From (.FromCountry "ES".toList)], [.Any], .HttpStatus 403, []⟩

/-- The address 127.0.0.1. -/
def ip127 : Ipv4Addr := ⟨⟨127, by omega⟩, ⟨0, by omega⟩, ⟨0, by omega⟩, ⟨1, by omega⟩⟩

/-- The rule parsed from `301|127.0.0.1,/a/|/b/`. -/
def ruleRedirect : Rule :=
  ⟨[.From (.FromIpv4 ip127)], [.Path "/a/".toList],
    .PermanentRedirect "/b/".toList, []⟩

/-- The group loaded from the three scenario lines, in order. -/
def sgC3 : SecurityGroup :=
  SecurityGroup.from_lines "default".toList
    ["401|-JP".toList, "403|ES".toList, "301|127.0.0.1,/a/|/b/".toList]

/-- The one-group service holding the scenario group. -/
def svcC3 : SecurityGroupService := ⟨[], [("default".toList, sgC3)]⟩

/-- The loaded store, concretely: only `403|ES` is indexable (under the key
`ES`); the excluding-only rule and the two-axis redirect rule fall into the
scan list, in insertion order. -/
theorem sgC3_eq :
    sgC3 = ⟨"default".toList, [("ES".toList, Reaction.HttpStatus 403)],
      [ruleES403], [ruleJP401, ruleRedirect]⟩ := by decide

/-- A country-code string is never the rendering of an IPv4 address
(a rendered address has at least seven characters). -/
theorem ES_ne_ipToStr (ip : Ipv4Addr) : ¬ ("ES".toList = ipToStr ip) := by
  intro h
  have hlen := seven_le_length_ipToStr ip
  rw [← h] at hlen
  simp at hlen

/-- A string with a trailing slash appended is never `"ES"`. -/
theorem ES_ne_append_slash (s : Str) : ¬ ("ES".toList = s ++ ['/']) := by
  intro h
  have hgl := congrArg List.getLast? h
  rw [List.getLast?_concat] at hgl
  have hes : ("ES".toList : Str).getLast? = some 'S' := by decide
  rw [hes] at hgl
  exact absurd (Option.some.inj hgl) (by decide)

/-- The redirect rule applies exactly to visitors with IP 127.0.0.1 whose
URI is `/a/` (or `/a//`, because a `Path` also matches with one more
trailing slash). -/
theorem ruleRedirect_react (v : Visitor) :
    ruleRedirect.react v =
      if (v.uri = "/a/".toList ∨ v.uri = "/a//".toList) ∧ v.ip = ip127
      then some (Reaction.PermanentRedirect "/b/".toList) else none := by
  have happ : ("/a/".toList ++ ['/'] : Str) = "/a//".toList := by decide
  by_cases h1 : v.uri = "/a/".toList <;> by_cases h3 : v.ip = ip127 <;>
    by_cases h2 : v.uri = "/a//".toList <;>
    simp [ruleRedirect, Rule.react, reactStep, Rule.match_target, Target.matches,
      Source.matches, happ, h1, h2, h3]

/-- The country contribution to the visitor's lookup keys. -/
def countryPart : Option Str → List Str
  | some c => [c]
  | none => []

/-- The with-trailing-slash contribution to the visitor's lookup keys. -/
def slashPart (uri : Str) : List Str :=
  match uri.getLast? with
  | some lc => if lc ≠ '/' then [uri ++ ['/']] else []
  | none => []

theorem slashPart_of_getLast_none {uri : Str} (h : uri.getLast? = none) :
    slashPart uri = [] := by
  simp [slashPart, h]

theorem slashPart_of_getLast_some {uri : Str} {lc : Char} (h : uri.getLast? = some lc) :
    slashPart uri = if lc ≠ '/' then [uri ++ ['/']] else [] := by
  simp [slashPart, h]

/-- The visitor's lookup keys, flattened into its four contributions. -/
theorem visitor_index_keys_eq (v : Visitor) :
    visitor_index_keys v =
      ipToStr v.ip :: (countryPart v.country ++ slashPart v.uri ++ [v.uri]) := by
  unfold visitor_index_keys countryPart slashPart
  cases v.country <;> cases hgl : v.uri.getLast? <;> simp [hgl] <;> split <;> simp

theorem firstKeyHit_nil (m : ReactionMap) : firstKeyHit m [] = none := rfl

theorem firstKeyHit_cons_none {m : ReactionMap} {k : Str} {ks : List Str}
    (h : mapGet m k = none) : firstKeyHit m (k :: ks) = firstKeyHit m ks := by
  simp [firstKeyHit, h]

theorem firstKeyHit_cons_some {m : ReactionMap} {k : Str} {r : Reaction} {ks : List Str}
    (h : mapGet m k = some r) : firstKeyHit m (k :: ks) = some r := by
  simp [firstKeyHit, h]

/-- A miss on the one-entry `ES` index map. -/
theorem mapGet_single_none {k : Str} (h : ¬ ("ES".toList = k)) :
    mapGet [("ES".toList, Reaction.HttpStatus 403)] k = none := by
  simp only [mapGet]
  rw [if_neg h]

/-- The rendered visitor IP never hits the `ES` entry. -/
theorem mapGet_single_ES_none_ip (ip : Ipv4Addr) :
    mapGet [("ES".toList, Reaction.HttpStatus 403)] (ipToStr ip) = none :=
  mapGet_single_none (ES_ne_ipToStr ip)

/-- C3 counterexample: a visitor with country `JP` (IP 1.2.3.4, URI `/x`)
does *not* get `HttpStatus 401` from the loaded scenario group — the
`401|-JP` rule never applies, so the service falls through to 200. -/
theorem C3_counterexample :
    svcC3.react "default".toList
      ⟨some "JP".toList, none,
        ⟨⟨1, by omega⟩, ⟨2, by omega⟩, ⟨3, by omega⟩, ⟨4, by omega⟩⟩, "/x".toList⟩ ≠
      Reaction.HttpStatus 401 := by decide

/-- C3 (amended): after loading `401|-JP`, `403|ES`,
`301|127.0.0.1,/a/|/b/` in order: the `401|-JP` rule applies to *no*
visitor (an access list with only `Excluding` entries can never set a
candidate), so a `JP` visitor is *not* rejected with 401; every visitor
with country `ES` gets 403 (via the index); every visitor with IP
127.0.0.1 and URI `/a/` whose country is not `ES` gets the 301 redirect to
`/b/`; and a visitor matching none of these — country not `ES`, URI not
the index key `ES`, and not the redirect rule's IP-and-path combination —
gets the 200 default. -/
theorem C3_scenario :
    (∀ v : Visitor, ruleJP401.react v = none) ∧
    (∀ v : Visitor, v.country = some "ES".toList →
      svcC3.react "default".toList v = Reaction.HttpStatus 403) ∧
    (∀ v : Visitor, v.ip = ip127 → v.uri = "/a/".toList →
      v.country ≠ some "ES".toList →
      svcC3.react "default".toList v = Reaction.PermanentRedirect "/b/".toList) ∧
    (∀ v : Visitor, v.country ≠ some "ES".toList → v.uri ≠ "ES".toList →
      ¬ (v.ip = ip127 ∧ (v.uri = "/a/".toList ∨ v.uri = "/a//".toList)) →
      svcC3.react "default".toList v = Reaction.HttpStatus 200) := by
  have hJP : ∀ v : Visitor, ruleJP401.react v = none := by
    intro v
    simp [ruleJP401, Rule.react, reactStep, Rule.match_target, Target.matches,
      Source.matches, ite_self]
  have hmES : mapGet [("ES".toList, Reaction.HttpStatus 403)] "ES".toList =
      some (Reaction.HttpStatus 403) := by decide
  refine ⟨hJP, ?_, ?_, ?_⟩
  · intro v hc
    simp only [SecurityGroupService.react, svcC3, groupsGet, if_pos]
    rw [sgC3_eq]
    simp only [SecurityGroup.react]
    rw [visitor_index_keys_eq, hc]
    rw [firstKeyHit_cons_none (mapGet_single_ES_none_ip v.ip)]
    simp only [countryPart, List.cons_append]
    rw [firstKeyHit_cons_some hmES]
  · intro v hip huri hc
    simp only [SecurityGroupService.react, svcC3, groupsGet, if_pos]
    rw [sgC3_eq]
    have hred : ruleRedirect.react v = some (Reaction.PermanentRedirect "/b/".toList) := by
      rw [ruleRedirect_react]
      rw [if_pos ⟨Or.inl huri, hip⟩]
    simp only [SecurityGroup.react]
    rw [visitor_index_keys_eq, huri]
    rw [firstKeyHit_cons_none (mapGet_single_ES_none_ip v.ip)]
    have hsl : slashPart "/a/".toList = [] := by decide
    rw [hsl]
    cases hvc : v.country with
    | none =>
      simp only [countryPart, List.nil_append, List.append_nil]
      rw [firstKeyHit_cons_none (by decide), firstKeyHit_nil]
      simp only [scanRules, hJP v, hred]
    | some c =>
      have hmc : mapGet [("ES".toList, Reaction.HttpStatus 403)] c = none :=
        mapGet_single_none (fun h => hc (by rw [hvc, ← h]))
      simp only [countryPart, List.nil_append, List.append_nil, List.cons_append]
      rw [firstKeyHit_cons_none hmc]
      rw [firstKeyHit_cons_none (by decide), firstKeyHit_nil]
      simp only [scanRules, hJP v, hred]
  · intro v hc huri hnred
    simp only [SecurityGroupService.react, svcC3, groupsGet, if_pos]
    rw [sgC3_eq]
    have hscan : scanRules [ruleJP401, ruleRedirect] v = none := by
      simp only [scanRules, hJP v]
      rw [ruleRedirect_react]
      rw [if_neg (fun h => hnred ⟨h.2, h.1⟩)]
    have hmuri : mapGet [("ES".toList, Reaction.HttpStatus 403)] v.uri = none :=
      mapGet_single_none (fun h => huri h.symm)
    simp only [SecurityGroup.react]
    rw [visitor_index_keys_eq]
    rw [firstKeyHit_cons_none (mapGet_single_ES_none_ip v.ip)]
    have hC : firstKeyHit [("ES".toList, Reaction.HttpStatus 403)]
        (slashPart v.uri ++ [v.uri]) = none := by
      have hlast : firstKeyHit [("ES".toList, Reaction.HttpStatus 403)] [v.uri] = none := by
        rw [firstKeyHit_cons_none hmuri, firstKeyHit_nil]
      cases hgl : v.uri.getLast? with
      | none =>
        rw [slashPart_of_getLast_none hgl]
        simpa using hlast
      | some lc =>
        rw [slashPart_of_getLast_some hgl]
        by_cases hlc : lc ≠ '/'
        · rw [if_pos hlc]
          simp only [List.cons_append, List.nil_append]
          rw [firstKeyHit_cons_none (mapGet_single_none (ES_ne_append_slash v.uri))]
          exact hlast
        · rw [if_neg hlc]
          simpa using hlast
    cases hvc : v.country with
    | none =>
      simp only [countryPart, List.nil_append]
      rw [hC, hscan]
    | some c =>
      have hmc : mapGet [("ES".toList, Reaction.HttpStatus 403)] c = none :=
        mapGet_single_none (fun h => hc (by rw [hvc, ← h]))
      simp only [countryPart, List.cons_append, List.nil_append]
      rw [firstKeyHit_cons_none hmc, hC, hscan]


/-- Witness for C3 at concrete visitors: an `ES` visitor, the 127.0.0.1
`/a/` visitor, and an unmatched `GB` visitor. -/
theorem C3_scenario_witness :
    svcC3.react "default".toList
      ⟨some "ES".toList, none,
        ⟨⟨9, by omega⟩, ⟨9, by omega⟩, ⟨9, by omega⟩, ⟨9, by omega⟩⟩, "/x".toList⟩ =
      Reaction.HttpStatus 403 ∧
    svcC3.react "default".toList ⟨none, none, ip127, "/a/".toList⟩ =
      Reaction.PermanentRedirect "/b/".toList ∧
    svcC3.react "default".toList
      ⟨some "GB".toList, none,
        ⟨⟨1, by omega⟩, ⟨2, by omega⟩, ⟨3, by omega⟩, ⟨4, by omega⟩⟩, "/x".toList⟩ =
      Reaction.HttpStatus 200 :=
  ⟨C3_scenario.2.1 _ rfl,
   C3_scenario.2.2.1 _ rfl rfl (by decide),
   C3_scenario.2.2.2 _ (by decide) (by decide) (by decide)⟩

/-! ## C1: index-map lookup versus the naive ordered scan -/

/-- The rule parsed from `403|US` under a second name is not needed; the C1
counterexample reuses `ruleUS403` and the `401|US` rule. -/
def sgC1 : SecurityGroup :=
  ((SecurityGroup.new "g".toList).add ruleUS401).add ruleUS403

/-- C1 counterexample: both `401|US` and `403|US` are indexable, the second
overwrites the shared key `US`, so the store answers 403 for a `US` visitor
while the ordered scan of the full rule list answers 401. -/
theorem C1_counterexample :
    sgC1.react ⟨some "US".toList, none,
        ⟨⟨1, by omega⟩, ⟨2, by omega⟩, ⟨3, by omega⟩, ⟨4, by omega⟩⟩, "/".toList⟩ =
      some (Reaction.HttpStatus 403) ∧
    scanRules [ruleUS401, ruleUS403]
      ⟨some "US".toList, none,
        ⟨⟨1, by omega⟩, ⟨2, by omega⟩, ⟨3, by omega⟩, ⟨4, by omega⟩⟩, "/".toList⟩ =
      some (Reaction.HttpStatus 401) := by decide

/-- A strongly-keyed access entry: its sole index key is in bijection with
its matching semantics, and cannot collide with keys of any other kind
(IPv4 renderings carry a dot-digit shape and seven or more characters;
country codes are two characters not starting with `/`). -/
def Access.strongKeyed : Access → Bool
  | .From (.FromIpv4 _) => true
  | .From (.FromCountry c) => c.length = 2 ∧ c.head? ≠ some '/'
  | _ => false

/-- A rule whose index entry captures its matching behaviour exactly: a
trivial target and a nonempty access list of strongly-keyed entries. -/
def strongIndexable (r : Rule) : Bool :=
  r.target = [Target.Any] ∧ r.access ≠ [] ∧ r.access.all Access.strongKeyed

/-- The single index key of a strongly-keyed access entry. -/
def accessKey : Access → Str
  | .From (.FromIpv4 ip) => ipToStr ip
  | .From (.FromCountry c) => c
  | _ => []

/-- Whether one access entry (of a strong rule) admits the visitor. -/
def accessMatches (a : Access) (v : Visitor) : Bool :=
  match a with
  | .From s => s.matches v
  | .Excluding _ => false

theorem has_access_conditions_of_strong {r : Rule} (h : strongIndexable r = true) :
    r.has_access_conditions = true := by
  simp only [strongIndexable, Bool.and_eq_true, decide_eq_true_eq] at h
  obtain ⟨-, -, hall⟩ := h
  unfold Rule.has_access_conditions
  split
  · next heq =>
    rw [heq] at hall
    simp [Access.strongKeyed] at hall
  · rfl

/-- Flattening a map to singletons is a plain map. -/
theorem flatten_map_singleton {α β : Type} (l : List α) (f : α → List β) (g : α → β)
    (h : ∀ a ∈ l, f a = [g a]) : (l.map f).flatten = l.map g := by
  induction l with
  | nil => rfl
  | cons a l ih =>
    simp only [List.map_cons, List.flatten_cons, h a (List.mem_cons_self _ _)]
    rw [ih (fun a' ha' => h a' (List.mem_cons_of_mem _ ha'))]
    rfl

/-- A strong rule's index keys are exactly the keys of its access entries. -/
theorem index_keys_strong {r : Rule} (h : strongIndexable r = true) :
    r.index_keys = r.access.map accessKey := by
  have hacc := has_access_conditions_of_strong h
  simp only [strongIndexable, Bool.and_eq_true, decide_eq_true_eq] at h
  obtain ⟨htgt, -, hall⟩ := h
  unfold Rule.index_keys
  rw [hacc]
  have htc : r.has_target_conditions = false := by
    unfold Rule.has_target_conditions
    rw [htgt]
  rw [htc]
  simp only [Bool.not_true, Bool.false_eq_true, if_false, Bool.not_false, if_true]
  apply flatten_map_singleton
  intro a ha
  have hs := List.all_eq_true.mp hall a ha
  cases a with
  | Excluding s => simp [Access.strongKeyed] at hs
  | From s =>
    cases s with
    | Any => simp [Access.strongKeyed] at hs
    | FromIpv4 ip => rfl
    | FromIpv4Network n => simp [Access.strongKeyed] at hs
    | FromCountry c => rfl
    | FromCity c => simp [Access.strongKeyed] at hs

/-- A strong rule's keys are nonempty (one per access entry). -/
theorem index_keys_strong_ne_nil {r : Rule} (h : strongIndexable r = true) :
    r.index_keys ≠ [] := by
  rw [index_keys_strong h]
  have := h
  simp only [strongIndexable, Bool.and_eq_true, decide_eq_true_eq] at this
  obtain ⟨-, hne, -⟩ := this
  simpa using hne

/-- `reactStep` on a `From` entry. -/
theorem reactStep_from (rea : Reaction) (v : Visitor) (out : Option Reaction)
    (s : Source) :
    reactStep rea v out (.From s) = if s.matches v then some rea else out := rfl

/-- `accessMatches` on a `From` entry. -/
theorem accessMatches_from (s : Source) (v : Visitor) :
    accessMatches (.From s) v = s.matches v := rfl

/-- A strong rule reacts exactly when some access entry matches, and then
with its own reaction. -/
theorem react_strong {r : Rule} (v : Visitor) (h : strongIndexable r = true) :
    r.react v = if r.access.any (fun a => accessMatches a v) then some r.reaction
      else none := by
  have hs := h
  simp only [strongIndexable, Bool.and_eq_true, decide_eq_true_eq] at hs
  obtain ⟨htgt, -, hall⟩ := hs
  unfold Rule.react
  have hmt : r.match_target v = true := by
    unfold Rule.match_target
    rw [htgt]
    simp [Target.matches]
  rw [if_pos hmt]
  suffices hgen : ∀ (l : List Access), (∀ a ∈ l, a.strongKeyed = true) →
      ∀ init : Option Reaction,
      l.foldl (reactStep r.reaction v) init =
        if l.any (fun a => accessMatches a v) then some r.reaction else init by
    exact hgen r.access (fun a ha => List.all_eq_true.mp hall a ha) none
  intro l
  induction l with
  | nil => intro _ init; simp
  | cons a l ih =>
    intro hl init
    have hsa := hl a (List.mem_cons_self _ _)
    have hrest := fun a' ha' => hl a' (List.mem_cons_of_mem _ ha')
    cases a with
    | Excluding s => simp [Access.strongKeyed] at hsa
    | From s =>
      simp only [List.foldl_cons, reactStep_from, List.any_cons, accessMatches_from]
      rw [ih hrest]
      by_cases hm : s.matches v = true
      · simp [hm]
      · rw [Bool.not_eq_true] at hm
        simp [hm]

/-- The rendered address starts with a digit. -/
theorem ipToStr_head (ip : Ipv4Addr) :
    ∃ d, (ipToStr ip).head? = some d ∧ d.isDigit = true := by
  cases hd : natDigits ip.a.val with
  | nil => exact absurd hd (natDigits_ne_nil _)
  | cons c cs =>
    refine ⟨c, ?_, isDigit_natDigits _ c (hd ▸ List.mem_cons_self _ _)⟩
    unfold ipToStr
    rw [hd]
    rfl

/-- A string starting with `/` is not a rendered address. -/
theorem slash_ne_ipToStr {k : Str} (hk : k.head? = some '/') (ip : Ipv4Addr) :
    k ≠ ipToStr ip := by
  intro h
  obtain ⟨d, hd, hdig⟩ := ipToStr_head ip
  rw [h, hd] at hk
  rw [Option.some.inj hk] at hdig
  exact absurd hdig (by decide)

/-- A two-character string is not a rendered address. -/
theorem country_ne_ipToStr {c : Str} (hc : c.length = 2) (ip : Ipv4Addr) :
    c ≠ ipToStr ip := by
  intro h
  have := seven_le_length_ipToStr ip
  rw [← h, hc] at this
  omega

/-- Appending a slash keeps a leading slash. -/
theorem head_append {uri : Str} {c : Char} (h : uri.head? = some c) (t : Str) :
    (uri ++ t : Str).head? = some c := by
  cases uri with
  | nil => simp at h
  | cons x xs => simpa using h

/-- The only member of `slashPart uri` is `uri ++ "/"`. -/
theorem eq_of_mem_slashPart {uri k : Str} (h : k ∈ slashPart uri) :
    k = uri ++ ['/'] := by
  rcases hgl : uri.getLast? with _ | lc
  · rw [slashPart_of_getLast_none hgl] at h
    simp at h
  · rw [slashPart_of_getLast_some hgl] at h
    split at h
    · simpa using h
    · simp at h

/-- For a strongly-keyed access entry, the entry's key occurs among the
visitor's lookup keys exactly when the entry admits the visitor — provided
the visitor's URI starts with `/` and its country, if known, is a
two-character code. -/
theorem strong_key_mem_iff (a : Access) (v : Visitor)
    (ha : a.strongKeyed = true)
    (hcv : ∀ cv, v.country = some cv → cv.length = 2)
    (huri : v.uri.head? = some '/') :
    accessKey a ∈ visitor_index_keys v ↔ accessMatches a v = true := by
  have huri_ne : v.uri ≠ [] := by
    intro h
    rw [h] at huri
    simp at huri
  rw [visitor_index_keys_eq]
  cases a with
  | Excluding s => simp [Access.strongKeyed] at ha
  | From s =>
    cases s with
    | Any => simp [Access.strongKeyed] at ha
    | FromIpv4Network n => simp [Access.strongKeyed] at ha
    | FromCity c => simp [Access.strongKeyed] at ha
    | FromIpv4 ip =>
      simp only [accessKey, accessMatches_from, Source.matches, decide_eq_true_eq]
      constructor
      · intro hmem
        rcases List.mem_cons.mp hmem with h | h
        · exact (ipToStr_injective h).symm
        · exfalso
          rcases List.mem_append.mp h with h | h
          · rcases List.mem_append.mp h with h | h
            · cases hvc : v.country with
              | none => rw [hvc] at h; simp [countryPart] at h
              | some cv =>
                rw [hvc] at h
                simp only [countryPart, List.mem_singleton] at h
                exact country_ne_ipToStr (hcv cv hvc) ip h.symm
            · have hk := eq_of_mem_slashPart h
              exact (slash_ne_ipToStr (head_append huri ['/']) ip) hk.symm
          · simp only [List.mem_singleton] at h
            exact slash_ne_ipToStr (h ▸ huri) ip h.symm
      · intro hm
        rw [← hm]
        exact List.mem_cons_self _ _
    | FromCountry c =>
      have hc : c.length = 2 ∧ c.head? ≠ some '/' := by
        simpa [Access.strongKeyed] using ha
      simp only [accessKey, accessMatches_from, Source.matches, decide_eq_true_eq]
      constructor
      · intro hmem
        rcases List.mem_cons.mp hmem with h | h
        · exact absurd h (country_ne_ipToStr hc.1 v.ip)
        · rcases List.mem_append.mp h with h | h
          · rcases List.mem_append.mp h with h | h
            · cases hvc : v.country with
              | none => rw [hvc] at h; simp [countryPart] at h
              | some cv =>
                rw [hvc] at h
                simp only [countryPart, List.mem_singleton] at h
                rw [h]
            · have hk := eq_of_mem_slashPart h
              exact absurd (hk ▸ head_append huri ['/']) hc.2
          · simp only [List.mem_singleton] at h
            exact absurd (h ▸ huri) hc.2
      · intro hm
        refine List.mem_cons_of_mem _ (List.mem_append_left _ (List.mem_append_left _ ?_))
        rw [hm]
        simp [countryPart]

/-- A scan over rules that all decline yields nothing. -/
theorem scanRules_eq_none {rs : List Rule} {v : Visitor}
    (h : ∀ r ∈ rs, r.react v = none) : scanRules rs v = none := by
  induction rs with
  | nil => rfl
  | cons r rs ih =>
    simp only [scanRules, h r (List.mem_cons_self _ _)]
    exact ih (fun r' hr' => h r' (List.mem_cons_of_mem _ hr'))

/-- When exactly one rule value reacts, the scan returns its reaction. -/
theorem scanRules_unique {rs : List Rule} {v : Visitor} {R : Rule} {x : Reaction}
    (hR : R ∈ rs) (hx : R.react v = some x)
    (hothers : ∀ r ∈ rs, r ≠ R → r.react v = none) : scanRules rs v = some x := by
  induction rs with
  | nil => exact absurd hR (List.not_mem_nil R)
  | cons r rs ih =>
    by_cases hrR : r = R
    · subst hrR
      simp only [scanRules, hx]
    · simp only [scanRules, hothers r (List.mem_cons_self _ _) hrR]
      have hR' : R ∈ rs := by
        rcases List.mem_cons.mp hR with h | h
        · exact absurd h.symm hrR
        · exact h
      exact ih hR' (fun r' hr' => hothers r' (List.mem_cons_of_mem _ hr'))

/-- An all-miss probe returns nothing. -/
theorem firstKeyHit_none_of {m : ReactionMap} {ks : List Str}
    (h : ∀ k ∈ ks, mapGet m k = none) : firstKeyHit m ks = none := by
  induction ks with
  | nil => rfl
  | cons k ks ih =>
    simp only [firstKeyHit, h k (List.mem_cons_self _ _)]
    exact ih (fun k' hk' => h k' (List.mem_cons_of_mem _ hk'))

/-- A probe over keys that hit only one value returns that value as soon as
any key hits. -/
theorem firstKeyHit_some_of {m : ReactionMap} {ks : List Str} {x : Reaction}
    (hex : ∃ k ∈ ks, mapGet m k ≠ none)
    (hval : ∀ k ∈ ks, mapGet m k = none ∨ mapGet m k = some x) :
    firstKeyHit m ks = some x := by
  induction ks with
  | nil =>
    obtain ⟨k, hk, -⟩ := hex
    exact absurd hk (List.not_mem_nil k)
  | cons k ks ih =>
    rcases hval k (List.mem_cons_self _ _) with h | h
    · simp only [firstKeyHit, h]
      refine ih ?_ (fun k' hk' => hval k' (List.mem_cons_of_mem _ hk'))
      obtain ⟨k', hk', hne⟩ := hex
      rcases List.mem_cons.mp hk' with heq | hmem
      · exact absurd (heq ▸ h) hne
      · exact ⟨k', hmem, hne⟩
    · simp only [firstKeyHit, h]

/-- A list with two distinct members has length at least two. -/
theorem two_le_length_of_mem {α : Type} {l : List α} {a b : α}
    (ha : a ∈ l) (hb : b ∈ l) (hab : a ≠ b) : 2 ≤ l.length := by
  induction l with
  | nil => exact absurd ha (List.not_mem_nil a)
  | cons x xs ih =>
    cases xs with
    | nil =>
      simp only [List.mem_singleton] at ha hb
      exact absurd (ha.trans hb.symm) hab
    | cons y ys => simp

/-- With globally distinct keys, at most one rule produces a given key. -/
theorem length_filter_contains_le_one {rs : List Rule}
    (h : (rs.map Rule.index_keys).flatten.Nodup) (k : Str) :
    (rs.filter (fun r => r.index_keys.contains k)).length ≤ 1 := by
  induction rs with
  | nil => simp
  | cons r rs ih =>
    simp only [List.map_cons, List.flatten_cons, List.nodup_append] at h
    obtain ⟨h1, h2, hdisj⟩ := h
    rw [List.filter_cons]
    by_cases hk : r.index_keys.contains k
    · rw [if_pos hk]
      have hnil : rs.filter (fun r => r.index_keys.contains k) = [] := by
        rw [List.filter_eq_nil_iff]
        intro r' hr' hk'
        have hk1 : k ∈ r.index_keys := List.elem_iff.mp hk
        have hk2 : k ∈ (rs.map Rule.index_keys).flatten := by
          rw [List.mem_flatten]
          exact ⟨r'.index_keys, List.mem_map_of_mem _ hr', List.elem_iff.mp hk'⟩
        exact hdisj hk1 hk2
      rw [hnil]
      simp
    · rw [if_neg hk]
      exact ih h2

/-- C1 (amended): for a store built by successive adds of *strongly
indexable* rules (trivial target; nonempty access of plain `From(Ipv4)` /
`From(two-letter country not starting with /)` entries) whose index keys
are globally distinct, and a visitor whose URI starts with `/`, whose
country (if known) is a two-character code, and whose lookup keys hit the
index map at most once, the store's reaction equals the naive ordered scan
of the full rule list. -/
theorem C1_index_scan_equivalence (nm : Str) (rs : List Rule) (v : Visitor)
    (hstrong : ∀ r ∈ rs, strongIndexable r = true)
    (hnodup : (rs.map Rule.index_keys).flatten.Nodup)
    (hcv : ∀ cv, v.country = some cv → cv.length = 2)
    (huri : v.uri.head? = some '/')
    (hone : ((visitor_index_keys v).filter
        (fun k => (mapGet (rs.foldl SecurityGroup.add
          (SecurityGroup.new nm)).map_indexed k).isSome)).length ≤ 1) :
    (rs.foldl SecurityGroup.add (SecurityGroup.new nm)).react v = scanRules rs v := by
  have hmapchar : ∀ k, mapGet (rs.foldl SecurityGroup.add
      (SecurityGroup.new nm)).map_indexed k =
      ((rs.filter (fun r => r.index_keys.contains k)).getLast?).map Rule.reaction := by
    intro k
    rw [mapGet_foldAdd]
    cases (rs.filter (fun r => r.index_keys.contains k)).getLast? with
    | none => rfl
    | some r => rfl
  have hnon : (rs.foldl SecurityGroup.add (SecurityGroup.new nm)).list_non_indexed = [] := by
    rw [(foldAdd_lists rs _).2]
    simp only [SecurityGroup.new, List.nil_append]
    rw [List.filter_eq_nil_iff]
    intro r hr hk
    exact index_keys_strong_ne_nil (hstrong r hr) (by simpa using hk)
  have hreact : ∀ r ∈ rs, r.react v =
      if ∃ k ∈ r.index_keys, k ∈ visitor_index_keys v then some r.reaction else none := by
    intro r hr
    rw [react_strong v (hstrong r hr)]
    have hall : r.access.all Access.strongKeyed = true := by
      have := hstrong r hr
      simp only [strongIndexable, Bool.and_eq_true, decide_eq_true_eq] at this
      exact this.2.2
    rw [index_keys_strong (hstrong r hr)]
    by_cases hex : ∃ k ∈ r.access.map accessKey, k ∈ visitor_index_keys v
    · rw [if_pos hex]
      obtain ⟨k, hk, hkv⟩ := hex
      obtain ⟨a, ha, rfl⟩ := List.mem_map.mp hk
      have hm := (strong_key_mem_iff a v (List.all_eq_true.mp hall a ha) hcv huri).mp hkv
      rw [if_pos (List.any_eq_true.mpr ⟨a, ha, hm⟩)]
    · rw [if_neg hex]
      rw [if_neg]
      intro hany
      obtain ⟨a, ha, hm⟩ := List.any_eq_true.mp hany
      exact hex ⟨accessKey a, List.mem_map_of_mem _ ha,
        (strong_key_mem_iff a v (List.all_eq_true.mp hall a ha) hcv huri).mpr hm⟩
  -- a hit in the map names a rule that reacts
  have hhit_rule : ∀ k ∈ visitor_index_keys v,
      ∀ rea, mapGet (rs.foldl SecurityGroup.add
        (SecurityGroup.new nm)).map_indexed k = some rea →
      ∃ R ∈ rs, k ∈ R.index_keys ∧ rea = R.reaction ∧ R.react v = some R.reaction := by
    intro k hkv rea hrea
    rw [hmapchar] at hrea
    obtain ⟨R, hgl, hRrea⟩ := Option.map_eq_some'.mp hrea
    have hRmem := List.mem_of_mem_getLast? hgl
    have hRrs := (List.mem_filter.mp hRmem).1
    have hkR : k ∈ R.index_keys := List.elem_iff.mp (List.mem_filter.mp hRmem).2
    refine ⟨R, hRrs, hkR, hRrea.symm, ?_⟩
    rw [hreact R hRrs, if_pos ⟨k, hkR, hkv⟩]
  by_cases hex : ∃ R ∈ rs, R.react v ≠ none
  · obtain ⟨R, hR, hRne⟩ := hex
    have hRsome : R.react v = some R.reaction ∧
        ∃ k ∈ R.index_keys, k ∈ visitor_index_keys v := by
      rw [hreact R hR] at hRne ⊢
      by_cases h : ∃ k ∈ R.index_keys, k ∈ visitor_index_keys v
      · exact ⟨by rw [if_pos h], h⟩
      · rw [if_neg h] at hRne
        exact absurd rfl hRne
    obtain ⟨hRsome, k0, hk0R, hk0v⟩ := hRsome
    have hk0m : mapGet (rs.foldl SecurityGroup.add
        (SecurityGroup.new nm)).map_indexed k0 = some R.reaction := by
      rw [hmapchar]
      have hle := length_filter_contains_le_one hnodup k0
      have hRmem : R ∈ rs.filter (fun r => r.index_keys.contains k0) :=
        List.mem_filter.mpr ⟨hR, List.elem_iff.mpr hk0R⟩
      cases hfl : rs.filter (fun r => r.index_keys.contains k0) with
      | nil => rw [hfl] at hRmem; exact absurd hRmem (List.not_mem_nil R)
      | cons r' rest =>
        rw [hfl] at hRmem hle
        cases rest with
        | cons r'' t => simp at hle
        | nil =>
          simp only [List.mem_singleton] at hRmem
          rw [← hRmem]
          rfl
    have hothers : ∀ r ∈ rs, r ≠ R → r.react v = none := by
      intro r' hr' hne
      rw [hreact r' hr']
      rw [if_neg]
      rintro ⟨k', hk'r, hk'v⟩
      have hkne : k' ≠ k0 := by
        intro heq
        subst heq
        have h1 : R ∈ rs.filter (fun r => r.index_keys.contains k') :=
          List.mem_filter.mpr ⟨hR, List.elem_iff.mpr hk0R⟩
        have h2 : r' ∈ rs.filter (fun r => r.index_keys.contains k') :=
          List.mem_filter.mpr ⟨hr', List.elem_iff.mpr hk'r⟩
        have := two_le_length_of_mem h2 h1 hne
        have hle := length_filter_contains_le_one hnodup k'
        omega
      have hk'm : (mapGet (rs.foldl SecurityGroup.add
          (SecurityGroup.new nm)).map_indexed k').isSome = true := by
        rw [hmapchar]
        have h2 : r' ∈ rs.filter (fun r => r.index_keys.contains k') :=
          List.mem_filter.mpr ⟨hr', List.elem_iff.mpr hk'r⟩
        cases hfl : rs.filter (fun r => r.index_keys.contains k') with
        | nil => rw [hfl] at h2; exact absurd h2 (List.not_mem_nil r')
        | cons x t =>
          rw [List.getLast?_eq_getLast (x :: t) (by simp)]
          rfl
      have hk0m' : (mapGet (rs.foldl SecurityGroup.add
          (SecurityGroup.new nm)).map_indexed k0).isSome = true := by
        rw [hk0m]
        rfl
      have hmem1 : k' ∈ (visitor_index_keys v).filter
          (fun k => (mapGet (rs.foldl SecurityGroup.add
            (SecurityGroup.new nm)).map_indexed k).isSome) :=
        List.mem_filter.mpr ⟨hk'v, hk'm⟩
      have hmem2 : k0 ∈ (visitor_index_keys v).filter
          (fun k => (mapGet (rs.foldl SecurityGroup.add
            (SecurityGroup.new nm)).map_indexed k).isSome) :=
        List.mem_filter.mpr ⟨hk0v, hk0m'⟩
      have := two_le_length_of_mem hmem1 hmem2 hkne
      omega
    have hscan : scanRules rs v = some R.reaction :=
      scanRules_unique hR hRsome hothers
    have hprobe : firstKeyHit (rs.foldl SecurityGroup.add
        (SecurityGroup.new nm)).map_indexed (visitor_index_keys v) = some R.reaction := by
      refine firstKeyHit_some_of ⟨k0, hk0v, by rw [hk0m]; exact Option.some_ne_none _⟩ ?_
      intro k hkv
      cases hmk : mapGet (rs.foldl SecurityGroup.add
          (SecurityGroup.new nm)).map_indexed k with
      | none => exact Or.inl rfl
      | some rea =>
        obtain ⟨R', hR', hkR', hrea, hR'react⟩ := hhit_rule k hkv rea hmk
        right
        by_cases hRR : R' = R
        · rw [hrea, hRR]
        · exact absurd hR'react (by rw [hothers R' hR' hRR]; exact (Option.noConfusion ·))
    simp only [SecurityGroup.react, hprobe, hscan]
  · push_neg at hex
    have hall_none : ∀ r ∈ rs, r.react v = none := by
      intro r hr
      by_contra hne
      exact hne (hex r hr)
    have hscan : scanRules rs v = none := scanRules_eq_none hall_none
    have hprobe : firstKeyHit (rs.foldl SecurityGroup.add
        (SecurityGroup.new nm)).map_indexed (visitor_index_keys v) = none := by
      refine firstKeyHit_none_of ?_
      intro k hkv
      cases hmk : mapGet (rs.foldl SecurityGroup.add
          (SecurityGroup.new nm)).map_indexed k with
      | none => rfl
      | some rea =>
        obtain ⟨R', hR', -, -, hR'react⟩ := hhit_rule k hkv rea hmk
        rw [hall_none R' hR'] at hR'react
        exact absurd hR'react (by simp)
    simp only [SecurityGroup.react, hprobe, hnon, hscan]
    rfl

/-- The rule parsed from `403|1.2.3.4`. -/
def ruleIp403 : Rule :=
  ⟨[.From (.FromIpv4 ⟨⟨1, by omega⟩, ⟨2, by omega⟩, ⟨3, by omega⟩, ⟨4, by omega⟩⟩)],
    [.Any], .HttpStatus 403, []⟩

/-- The C1 witness rule set. -/
def rsW : List Rule := [ruleUS401, ruleIp403]

/-- The C1 witness visitor. -/
def vW : Visitor :=
  ⟨some "US".toList, none,
    ⟨⟨9, by omega⟩, ⟨9, by omega⟩, ⟨9, by omega⟩, ⟨9, by omega⟩⟩, "/".toList⟩

/-- Witness for C1: two distinct-key strong rules (`401|US`, `403|1.2.3.4`)
and a `US` visitor whose keys hit the map exactly once. -/
theorem C1_index_scan_equivalence_witness :
    (rsW.foldl SecurityGroup.add (SecurityGroup.new "g".toList)).react vW =
      scanRules rsW vW ∧
    (rsW.foldl SecurityGroup.add (SecurityGroup.new "g".toList)).react vW =
      some (Reaction.HttpStatus 401) :=
  ⟨C1_index_scan_equivalence "g".toList rsW vW (by decide) (by decide)
    (by intro cv h; cases h; rfl) (by decide) (by decide),
   by decide⟩

/-! ## C2: parse/serialize round trip -/

/-- An access entry whose rendering survives the grammar: nonempty, not
classified as a target token, free of the three separators, and re-parsed
to itself. -/
def Access.tokenOk (a : Access) : Bool :=
  a.toStr ≠ [] ∧ a.toStr.head? ≠ some '/' ∧ a.toStr.head? ≠ some '^' ∧
  '|' ∉ a.toStr ∧ ',' ∉ a.toStr ∧ '#' ∉ a.toStr ∧ Access.parse a.toStr = a

/-- A target entry whose rendering survives the grammar: nonempty,
classified as a target token, free of the separators, and re-parsed to
itself. -/
def Target.tokenOk (t : Target) : Bool :=
  t.toStr ≠ [] ∧ (t.toStr.head? = some '/' ∨ t.toStr.head? = some '^') ∧
  '|' ∉ t.toStr ∧ ',' ∉ t.toStr ∧ '#' ∉ t.toStr ∧ Target.parse t.toStr = t

/-- A reaction whose rendering survives the grammar: a status within `u16`
range, or a redirect location free of `|` and `#`. -/
def Reaction.wfSerializable : Reaction → Bool
  | .HttpStatus c => c ≤ 65535
  | .PermanentRedirect loc => '|' ∉ loc ∧ '#' ∉ loc
  | .TemporaryRedirect loc => '|' ∉ loc ∧ '#' ∉ loc

/-- A rule on which serialization is lossless: a nonempty access list of
grammar-surviving entries, a target list that is either exactly `[Any]` or
nonempty with grammar-surviving entries, a serializable reaction, and tags
free of `,` and `#`. -/
def Rule.wf (r : Rule) : Bool :=
  r.access ≠ [] ∧ r.access.all Access.tokenOk ∧
  (r.target = [Target.Any] ∨ (r.target ≠ [] ∧ r.target.all Target.tokenOk)) ∧
  r.reaction.wfSerializable ∧
  r.tags.all (fun t => ',' ∉ t ∧ '#' ∉ t)

/-- C2 counterexample: a rule whose tag contains a comma does not survive
the round trip — the comma is reinterpreted as a tag separator. -/
def ruleTagComma : Rule :=
  ⟨[.From .Any], [.Any], .HttpStatus 200, ["a,b".toList]⟩

/-- C2 counterexample theorem: `parse (serialize r) ≠ Ok r` for the rule
tagged `["a,b"]` (it parses back with tags `["a","b"]`). -/
theorem C2_counterexample :
    Rule.parse ruleTagComma.to_string ≠ .ok ruleTagComma ∧
    Rule.parse ruleTagComma.to_string =
      .ok ⟨[.From .Any], [.Any], .HttpStatus 200, ["a".toList, "b".toList]⟩ := by
  decide

/-- A character different from the separator and absent from every piece is
absent from the join. -/
theorem not_mem_intercalateC {c sep : Char} {xss : List Str} (hc : c ≠ sep)
    (h : ∀ s ∈ xss, c ∉ s) : c ∉ intercalateC sep xss := by
  induction xss with
  | nil => simp [intercalateC]
  | cons x xs ih =>
    cases xs with
    | nil => exact h x (List.mem_cons_self _ _)
    | cons y ys =>
      show c ∉ x ++ sep :: intercalateC sep (y :: ys)
      intro hmem
      rcases List.mem_append.mp hmem with hmem | hmem
      · exact h x (List.mem_cons_self _ _) hmem
      · rcases List.mem_cons.mp hmem with hmem | hmem
        · exact hc hmem
        · exact ih (fun s hs => h s (List.mem_cons_of_mem _ hs)) hmem

/-- `has_access_conditions` is false exactly on the one-element `From(Any)`
list. -/
theorem has_access_conditions_false_iff (r : Rule) :
    r.has_access_conditions = false ↔ r.access = [Access.From Source.Any] := by
  obtain ⟨acc, tgt, rea, tg⟩ := r
  show (match acc with | [Access.From Source.Any] => false | _ => true) = false ↔ _
  rcases acc with _ | ⟨a, _ | ⟨b, rest⟩⟩
  · simp
  · rcases a with s | s
    · rcases s with _ | ip | net | c | c <;> simp
    · simp
  · simp

/-- A non-digit character never occurs in a rendered number. -/
theorem not_mem_natDigits {c : Char} (hc : c.isDigit = false) (n : Nat) :
    c ∉ natDigits n := fun h => by
  have hd := isDigit_natDigits n c h
  rw [hc] at hd
  exact Bool.false_ne_true hd

/-- Unpack `Access.tokenOk` into its component propositions. -/
theorem accessTokenOk_props {a : Access} (h : a.tokenOk = true) :
    a.toStr ≠ [] ∧ a.toStr.head? ≠ some '/' ∧ a.toStr.head? ≠ some '^' ∧
    '|' ∉ a.toStr ∧ ',' ∉ a.toStr ∧ '#' ∉ a.toStr ∧ Access.parse a.toStr = a := by
  rw [Access.tokenOk, decide_eq_true_eq] at h
  exact h

/-- Unpack `Target.tokenOk` into its component propositions. -/
theorem targetTokenOk_props {t : Target} (h : t.tokenOk = true) :
    t.toStr ≠ [] ∧ (t.toStr.head? = some '/' ∨ t.toStr.head? = some '^') ∧
    '|' ∉ t.toStr ∧ ',' ∉ t.toStr ∧ '#' ∉ t.toStr ∧ Target.parse t.toStr = t := by
  rw [Target.tokenOk, decide_eq_true_eq] at h
  exact h

/-- Rendered access tokens are all nonempty, so the length filter of
`to_string` keeps them all. -/
theorem aparts_eq {acc : List Access} (h : ∀ a ∈ acc, a.tokenOk = true) :
    (acc.map Access.toStr).filter (fun s => s.length > 0) = acc.map Access.toStr := by
  apply List.filter_eq_self.mpr
  intro s hs
  obtain ⟨a, ha, rfl⟩ := List.mem_map.mp hs
  have hne := (accessTokenOk_props (h a ha)).1
  simp only [gt_iff_lt, decide_eq_true_eq, List.length_pos]
  exact hne

/-- Rendered target tokens of a nontrivial well-formed target list are all
nonempty, so the length filter keeps them all. -/
theorem tparts_eq {tgt : List Target} (h : ∀ t ∈ tgt, t.tokenOk = true) :
    (tgt.map Target.toStr).filter (fun s => s.length > 0) = tgt.map Target.toStr := by
  apply List.filter_eq_self.mpr
  intro s hs
  obtain ⟨t, ht, rfl⟩ := List.mem_map.mp hs
  have hne := (targetTokenOk_props (h t ht)).1
  simp only [gt_iff_lt, decide_eq_true_eq, List.length_pos]
  exact hne

/-- Rendered access tokens all pass the access-side classification filter of
`Rule::parse`. -/
theorem filter_access_side {acc : List Access} (h : ∀ a ∈ acc, a.tokenOk = true) :
    (acc.map Access.toStr).filter
      (fun p => ¬ (p.head? = some '/' ∨ p.head? = some '^')) = acc.map Access.toStr := by
  apply List.filter_eq_self.mpr
  intro s hs
  obtain ⟨a, ha, rfl⟩ := List.mem_map.mp hs
  obtain ⟨-, h1, h2, -, -, -, -⟩ := accessTokenOk_props (h a ha)
  simp only [decide_eq_true_eq, not_or]
  exact ⟨h1, h2⟩

/-- No rendered access token passes the target-side classification filter. -/
theorem filter_target_of_access {acc : List Access} (h : ∀ a ∈ acc, a.tokenOk = true) :
    (acc.map Access.toStr).filter
      (fun p => p.head? = some '/' ∨ p.head? = some '^') = [] := by
  apply List.filter_eq_nil_iff.mpr
  intro s hs
  obtain ⟨a, ha, rfl⟩ := List.mem_map.mp hs
  obtain ⟨-, h1, h2, -, -, -, -⟩ := accessTokenOk_props (h a ha)
  simp only [decide_eq_true_eq, not_or]
  exact ⟨h1, h2⟩

/-- Rendered target tokens all pass the target-side classification filter. -/
theorem filter_target_side {tgt : List Target} (h : ∀ t ∈ tgt, t.tokenOk = true) :
    (tgt.map Target.toStr).filter
      (fun p => p.head? = some '/' ∨ p.head? = some '^') = tgt.map Target.toStr := by
  apply List.filter_eq_self.mpr
  intro s hs
  obtain ⟨t, ht, rfl⟩ := List.mem_map.mp hs
  obtain ⟨-, h1, -, -, -, -⟩ := targetTokenOk_props (h t ht)
  simp only [decide_eq_true_eq]
  exact h1

/-- No rendered target token passes the access-side classification filter. -/
theorem filter_access_of_target {tgt : List Target} (h : ∀ t ∈ tgt, t.tokenOk = true) :
    (tgt.map Target.toStr).filter
      (fun p => ¬ (p.head? = some '/' ∨ p.head? = some '^')) = [] := by
  apply List.filter_eq_nil_iff.mpr
  intro s hs
  obtain ⟨t, ht, rfl⟩ := List.mem_map.mp hs
  obtain ⟨-, h1, -, -, -, -⟩ := targetTokenOk_props (h t ht)
  simp only [decide_eq_true_eq, not_not]
  exact h1

/-- Re-parsing the renderings of well-formed access entries recovers them. -/
theorem map_parse_access {acc : List Access} (h : ∀ a ∈ acc, a.tokenOk = true) :
    (acc.map Access.toStr).map Access.parse = acc := by
  rw [List.map_map]
  conv_rhs => rw [← List.map_id acc]
  apply List.map_congr_left
  intro a ha
  simp only [Function.comp_apply, id_eq]
  exact (accessTokenOk_props (h a ha)).2.2.2.2.2.2

/-- Re-parsing the renderings of well-formed target entries recovers them. -/
theorem map_parse_target {tgt : List Target} (h : ∀ t ∈ tgt, t.tokenOk = true) :
    (tgt.map Target.toStr).map Target.parse = tgt := by
  rw [List.map_map]
  conv_rhs => rw [← List.map_id tgt]
  apply List.map_congr_left
  intro t ht
  simp only [Function.comp_apply, id_eq]
  exact (targetTokenOk_props (h t ht)).2.2.2.2.2

/-- Every piece joined into the access/target body of `to_string` is free of
the comma, pipe and hash separators. -/
theorem parts_props (acc : List Access) (tgt : List Target) (rea : Reaction) (tg : List Str)
    (hacc_all : ∀ a ∈ acc, a.tokenOk = true)
    (htgt : tgt = [Target.Any] ∨ (tgt ≠ [] ∧ ∀ t ∈ tgt, t.tokenOk = true)) :
    ∀ s ∈ ((if (Rule.mk acc tgt rea tg).has_access_conditions then
        (acc.map Access.toStr).filter (fun s => s.length > 0) else []) ++
      (tgt.map Target.toStr).filter (fun s => s.length > 0)),
      ',' ∉ s ∧ '|' ∉ s ∧ '#' ∉ s := by
  intro s hs
  rcases List.mem_append.mp hs with hs | hs
  · split at hs
    · obtain ⟨a, ha, rfl⟩ := List.mem_map.mp (List.mem_filter.mp hs).1
      obtain ⟨-, -, -, h1, h2, h3, -⟩ := accessTokenOk_props (hacc_all a ha)
      exact ⟨h2, h1, h3⟩
    · exact absurd hs (List.not_mem_nil s)
  · rcases htgt with rfl | ⟨-, htok⟩
    · rw [show ([Target.Any].map Target.toStr).filter (fun s => s.length > 0) = [] from rfl] at hs
      exact absurd hs (List.not_mem_nil s)
    · obtain ⟨t, ht, rfl⟩ := List.mem_map.mp (List.mem_filter.mp hs).1
      obtain ⟨-, -, h1, h2, h3, -⟩ := targetTokenOk_props (htok t ht)
      exact ⟨h2, h1, h3⟩

/-- The joined access/target body contains no pipe. -/
theorem body_no_pipe (acc : List Access) (tgt : List Target) (rea : Reaction) (tg : List Str)
    (hacc_all : ∀ a ∈ acc, a.tokenOk = true)
    (htgt : tgt = [Target.Any] ∨ (tgt ≠ [] ∧ ∀ t ∈ tgt, t.tokenOk = true)) :
    '|' ∉ intercalateC ',' ((if (Rule.mk acc tgt rea tg).has_access_conditions then
        (acc.map Access.toStr).filter (fun s => s.length > 0) else []) ++
      (tgt.map Target.toStr).filter (fun s => s.length > 0)) :=
  not_mem_intercalateC (by decide)
    (fun s hs => (parts_props acc tgt rea tg hacc_all htgt s hs).2.1)

/-- The joined access/target body contains no hash. -/
theorem body_no_hash (acc : List Access) (tgt : List Target) (rea : Reaction) (tg : List Str)
    (hacc_all : ∀ a ∈ acc, a.tokenOk = true)
    (htgt : tgt = [Target.Any] ∨ (tgt ≠ [] ∧ ∀ t ∈ tgt, t.tokenOk = true)) :
    '#' ∉ intercalateC ',' ((if (Rule.mk acc tgt rea tg).has_access_conditions then
        (acc.map Access.toStr).filter (fun s => s.length > 0) else []) ++
      (tgt.map Target.toStr).filter (fun s => s.length > 0)) :=
  not_mem_intercalateC (by decide)
    (fun s hs => (parts_props acc tgt rea tg hacc_all htgt s hs).2.2)

/-- The pre-tags portion of a well-formed rule's serialization contains no
hash, so the `#` split of the whole line recovers it. -/
theorem base_no_hash (acc : List Access) (tgt : List Target) (rea : Reaction) (tg : List Str)
    (hacc_all : ∀ a ∈ acc, a.tokenOk = true)
    (htgt : tgt = [Target.Any] ∨ (tgt ≠ [] ∧ ∀ t ∈ tgt, t.tokenOk = true))
    (hrea : rea.wfSerializable = true) :
    '#' ∉ intercalateC '|'
      (((if rea.code ≠ 200 then [natDigits rea.code] else []) ++
        [intercalateC ',' ((if (Rule.mk acc tgt rea tg).has_access_conditions then
            (acc.map Access.toStr).filter (fun s => s.length > 0) else []) ++
          (tgt.map Target.toStr).filter (fun s => s.length > 0))]) ++
       (match rea.redirect with | some l => [l] | none => [])) := by
  apply not_mem_intercalateC (by decide)
  intro s hs
  rcases List.mem_append.mp hs with hs | hs
  · rcases List.mem_append.mp hs with hs | hs
    · split at hs
      · rw [List.mem_singleton] at hs
        subst hs
        exact not_mem_natDigits (by decide) _
      · exact absurd hs (List.not_mem_nil s)
    · rw [List.mem_singleton] at hs
      subst hs
      exact body_no_hash acc tgt rea tg hacc_all htgt
  · cases rea with
    | HttpStatus c => simp [Reaction.redirect] at hs
    | PermanentRedirect loc =>
      rw [Reaction.wfSerializable, decide_eq_true_eq] at hrea
      simp only [Reaction.redirect] at hs
      rw [List.mem_singleton] at hs
      subst hs
      exact hrea.2
    | TemporaryRedirect loc =>
      rw [Reaction.wfSerializable, decide_eq_true_eq] at hrea
      simp only [Reaction.redirect] at hs
      rw [List.mem_singleton] at hs
      subst hs
      exact hrea.2

/-- Joining a singleton adds no separator. -/
theorem intercalateC_single (c : Char) (x : Str) : intercalateC c [x] = x := rfl

/-- Joining a pair inserts one separator. -/
theorem intercalateC_pair (c : Char) (x y : Str) :
    intercalateC c [x, y] = x ++ c :: y := rfl

/-- Joining a triple inserts two separators. -/
theorem intercalateC_triple (c : Char) (x y z : Str) :
    intercalateC c [x, y, z] = x ++ c :: (y ++ c :: z) := rfl

/-- `Reaction::extract` applied to the serialized form of a well-formed
reaction around a pipe-free body recovers the body and the reaction. -/
theorem extract_base (rea : Reaction) (hrea : rea.wfSerializable = true)
    (body : Str) (hbody : '|' ∉ body) :
    Reaction.extract (intercalateC '|'
      (((if rea.code ≠ 200 then [natDigits rea.code] else []) ++ [body]) ++
       (match rea.redirect with | some l => [l] | none => []))) = .ok (body, rea) := by
  cases rea with
  | HttpStatus c =>
    rw [Reaction.wfSerializable, decide_eq_true_eq] at hrea
    simp only [Reaction.code, Reaction.redirect, List.append_nil]
    by_cases hc : c = 200
    · subst hc
      rw [if_neg (by decide), List.nil_append, intercalateC_single]
      rw [Reaction.extract.eq_def, splitOnC_of_not_mem hbody]
    · rw [if_pos hc, List.singleton_append, intercalateC_pair]
      rw [Reaction.extract.eq_def,
        splitOnC_append_cons (not_mem_natDigits (by decide) c),
        splitOnC_of_not_mem hbody]
      simp only []
      rw [show parseU16 (natDigits c) = some c from by
        rw [parseU16]; exact parseUintRust_natDigits hrea]
  | PermanentRedirect loc =>
    rw [Reaction.wfSerializable, decide_eq_true_eq] at hrea
    simp only [Reaction.code, Reaction.redirect]
    rw [if_pos (show (301:Nat) ≠ 200 from by decide)]
    rw [show natDigits 301 = ['3', '0', '1'] from by decide]
    rw [List.singleton_append, List.cons_append, List.singleton_append,
      intercalateC_triple]
    rw [Reaction.extract.eq_def,
      splitOnC_append_cons (show '|' ∉ ['3', '0', '1'] from by decide),
      splitOnC_append_cons hbody, splitOnC_of_not_mem hrea.1]
    rfl
  | TemporaryRedirect loc =>
    rw [Reaction.wfSerializable, decide_eq_true_eq] at hrea
    simp only [Reaction.code, Reaction.redirect]
    rw [if_pos (show (302:Nat) ≠ 200 from by decide)]
    rw [show natDigits 302 = ['3', '0', '2'] from by decide]
    rw [List.singleton_append, List.cons_append, List.singleton_append,
      intercalateC_triple]
    rw [Reaction.extract.eq_def,
      splitOnC_append_cons (show '|' ∉ ['3', '0', '2'] from by decide),
      splitOnC_append_cons hbody, splitOnC_of_not_mem hrea.1]
    rfl

/-- Splitting the joined body of a well-formed rule on commas and
classifying the tokens by leading character recovers the access and target
lists (with the `From(Any)` / `Any` defaults standing in for the trivial
lists). -/
theorem classify_final (acc : List Access) (tgt : List Target) (rea : Reaction) (tg : List Str)
    (hacc_ne : acc ≠ []) (hacc_all : ∀ a ∈ acc, a.tokenOk = true)
    (htgt : tgt = [Target.Any] ∨ (tgt ≠ [] ∧ ∀ t ∈ tgt, t.tokenOk = true)) :
    (Except.ok (Rule.mk
      (if ((splitOnC ',' (intercalateC ','
            ((if (Rule.mk acc tgt rea tg).has_access_conditions then
                (acc.map Access.toStr).filter (fun s => s.length > 0) else []) ++
              (tgt.map Target.toStr).filter (fun s => s.length > 0)))).filter
            (fun p => ¬ (p.head? = some '/' ∨ p.head? = some '^'))).map Access.parse = []
        then [Access.From Source.Any]
        else ((splitOnC ',' (intercalateC ','
            ((if (Rule.mk acc tgt rea tg).has_access_conditions then
                (acc.map Access.toStr).filter (fun s => s.length > 0) else []) ++
              (tgt.map Target.toStr).filter (fun s => s.length > 0)))).filter
            (fun p => ¬ (p.head? = some '/' ∨ p.head? = some '^'))).map Access.parse)
      (if ((splitOnC ',' (intercalateC ','
            ((if (Rule.mk acc tgt rea tg).has_access_conditions then
                (acc.map Access.toStr).filter (fun s => s.length > 0) else []) ++
              (tgt.map Target.toStr).filter (fun s => s.length > 0)))).filter
            (fun p => p.head? = some '/' ∨ p.head? = some '^')).map Target.parse = []
        then [Target.Any]
        else ((splitOnC ',' (intercalateC ','
            ((if (Rule.mk acc tgt rea tg).has_access_conditions then
                (acc.map Access.toStr).filter (fun s => s.length > 0) else []) ++
              (tgt.map Target.toStr).filter (fun s => s.length > 0)))).filter
            (fun p => p.head? = some '/' ∨ p.head? = some '^')).map Target.parse)
      rea tg) : Except String Rule) = .ok (Rule.mk acc tgt rea tg) := by
  by_cases hA : acc = [Access.From Source.Any]
  · have hc : (Rule.mk acc tgt rea tg).has_access_conditions = false :=
      (has_access_conditions_false_iff _).mpr hA
    have hcf : ¬ ((Rule.mk acc tgt rea tg).has_access_conditions = true) := by
      simp [hc]
    rw [if_neg hcf, List.nil_append]
    rcases htgt with rfl | ⟨htne, htok⟩
    · subst hA
      rfl
    · rw [tparts_eq htok]
      rw [splitOnC_intercalateC (fun hh => htne (List.map_eq_nil_iff.mp hh))
        (fun s hs => by
          obtain ⟨t, ht, rfl⟩ := List.mem_map.mp hs
          exact (targetTokenOk_props (htok t ht)).2.2.2.1)]
      rw [filter_access_of_target htok, filter_target_side htok,
        map_parse_target htok, List.map_nil]
      rw [if_pos rfl, if_neg htne, hA]
  · have hc : (Rule.mk acc tgt rea tg).has_access_conditions = true := by
      rcases Bool.eq_false_or_eq_true ((Rule.mk acc tgt rea tg).has_access_conditions)
        with hb | hb
      · exact hb
      · exact absurd ((has_access_conditions_false_iff _).mp hb) hA
    rw [if_pos hc, aparts_eq hacc_all]
    rcases htgt with rfl | ⟨htne, htok⟩
    · rw [show ([Target.Any].map Target.toStr).filter (fun s => s.length > 0)
          = ([] : List Str) from rfl, List.append_nil]
      rw [splitOnC_intercalateC (fun hh => hacc_ne (List.map_eq_nil_iff.mp hh))
        (fun s hs => by
          obtain ⟨a, ha, rfl⟩ := List.mem_map.mp hs
          exact (accessTokenOk_props (hacc_all a ha)).2.2.2.2.1)]
      rw [filter_access_side hacc_all, filter_target_of_access hacc_all,
        map_parse_access hacc_all, List.map_nil]
      rw [if_neg hacc_ne, if_pos rfl]
    · rw [tparts_eq htok]
      rw [splitOnC_intercalateC
        (fun hh => hacc_ne (List.map_eq_nil_iff.mp (List.append_eq_nil.mp hh).1))
        (fun s hs => by
          rcases List.mem_append.mp hs with hs | hs
          · obtain ⟨a, ha, rfl⟩ := List.mem_map.mp hs
            exact (accessTokenOk_props (hacc_all a ha)).2.2.2.2.1
          · obtain ⟨t, ht, rfl⟩ := List.mem_map.mp hs
            exact (targetTokenOk_props (htok t ht)).2.2.2.1)]
      rw [List.filter_append, List.filter_append]
      rw [filter_access_side hacc_all, filter_access_of_target htok,
        filter_target_of_access hacc_all, filter_target_side htok,
        List.append_nil, List.nil_append,
        map_parse_access hacc_all, map_parse_target htok]
      rw [if_neg hacc_ne, if_neg htne]

/-- C2 (amended): parsing the canonical serialization of a rule recovers the
rule for every well-formed rule (`Rule.wf`): nonempty access list of
grammar-surviving entries, target list exactly `[Any]` or nonempty with
grammar-surviving entries, serializable reaction, and tags free of `,` and
`#`.  The unrestricted claim is refuted by `C2_counterexample`. -/
theorem C2_roundtrip (r : Rule) (h : r.wf = true) :
    Rule.parse r.to_string = .ok r := by
  obtain ⟨acc, tgt, rea, tg⟩ := r
  rw [Rule.wf, decide_eq_true_eq] at h
  obtain ⟨hacc_ne, hacc_all, htgt, hrea, htags⟩ := h
  rw [List.all_eq_true] at hacc_all htags
  rw [List.all_eq_true] at htgt
  have htags2 : ∀ s ∈ tg, ',' ∉ s ∧ '#' ∉ s := by
    intro s hs
    have hb := htags s hs
    rwa [decide_eq_true_eq] at hb
  simp only [Rule.to_string, Rule.parse]
  by_cases htg : tg = []
  · subst htg
    rw [if_neg (by simp)]
    rw [splitOnC_of_not_mem (base_no_hash acc tgt rea [] hacc_all htgt hrea)]
    simp only []
    rw [extract_base rea hrea _ (body_no_pipe acc tgt rea [] hacc_all htgt)]
    exact classify_final acc tgt rea [] hacc_ne hacc_all htgt
  · rw [if_pos htg]
    rw [splitOnC_append_cons (base_no_hash acc tgt rea tg hacc_all htgt hrea)]
    rw [splitOnC_of_not_mem (show ('#' : Char) ∉ intercalateC ',' tg from
      not_mem_intercalateC (by decide) (fun s hs => (htags2 s hs).2))]
    simp only []
    rw [splitOnC_intercalateC htg (fun s hs => (htags2 s hs).1)]
    rw [extract_base rea hrea _ (body_no_pipe acc tgt rea tg hacc_all htgt)]
    exact classify_final acc tgt rea tg hacc_ne hacc_all htgt

/-- A concrete well-formed rule exercising every serialized field: country
and excluded-country access, path and caret-path targets, a permanent
redirect, and two tags. -/
def ruleC2W : Rule :=
  ⟨[.From (.FromCountry "US".toList), .Excluding (.FromCountry "GB".toList)],
   [.Path "/a/".toList, .PathPref "/api".toList],
   .PermanentRedirect "/b/".toList,
   ["blacklist".toList, "temp".toList]⟩

/-- Witness for `C2_roundtrip` at `ruleC2W`. -/
theorem C2_roundtrip_witness :
    ruleC2W.wf = true ∧ Rule.parse ruleC2W.to_string = .ok ruleC2W :=
  ⟨by decide, C2_roundtrip ruleC2W (by decide)⟩

end TraefikGuard